import Mathlib

/-!
# nameof: string slices and pretty-name extraction

A shallow embedding of `include/nameof.hpp` (nameof 0.5.0) and the properties
of its string slice `cstring`, of the expression-name extractor
`detail::NameofPretty` and of the type-name cleanup `detail::NameofTypePretty`.

Conventions of the embedding.

* `std::size_t` values are natural numbers; the operations that can wrap
  (`size_ - n`, the nesting counter `h`) go through `size_sub` / `size_add`,
  which reduce modulo `2 ^ 64`.  The loop counters `i` and `s` are bounded by
  the length of the slice and are plain naturals.
* A `const char*` is a `CharPtr`: the character array it points into and a
  position in it.  Reading outside the array is undefined behaviour in C++ and
  is `none` here, so every function that dereferences returns an `Option`.
* A `char` is a Lean `Char`; every byte value is one, and the comparisons the
  header makes (`'0'`..`'9'`, `'a'`..`'z'`, `'A'`..`'Z'`, single characters)
  read the same on both.
* The header selects one of two bodies for some functions with
  `NAMEOF_HAS_CONSTEXPR14`; both bodies are embedded, under separate names.
-/

namespace nameof

/-! ## `std::size_t` arithmetic -/

/-- The modulus of `std::size_t` arithmetic. -/
def SIZE_MOD : Nat := 2 ^ 64

/-- The sum `a + b` computed in `std::size_t`. -/
def size_add (a b : Nat) : Nat := (a + b) % SIZE_MOD

/-- The difference `a - b` computed in `std::size_t`; wraps below zero. -/
def size_sub (a b : Nat) : Nat := (a + (SIZE_MOD - b % SIZE_MOD)) % SIZE_MOD

/-! ## Character pointers -/

/-- A `const char*`: the array pointed into and the position in it. -/
structure CharPtr where
  mem : List Char
  pos : Nat
deriving DecidableEq

namespace CharPtr

/-- Pointer arithmetic `p + n`. -/
def add (p : CharPtr) (n : Nat) : CharPtr := { mem := p.mem, pos := p.pos + n }

/-- The read `p[i]`; `none` outside the array. -/
def read (p : CharPtr) (i : Nat) : Option Char := p.mem[p.pos + i]?

end CharPtr

namespace detail

/-- The C++14 body of `detail::StrEquals` (the `for` loop), at index `i` with
`n` iterations left. -/
def StrEquals_loop_from (lhs rhs : CharPtr) : Nat → Nat → Option Bool
  | _, 0 => some true
  | i, n + 1 =>
    match lhs.read i, rhs.read i with
    | some a, some b => if a ≠ b then some false else StrEquals_loop_from lhs rhs (i + 1) n
    | _, _ => none

/-- The C++14 body of `detail::StrEquals`: `for (i = 0; i < size; ++i)`. -/
def StrEquals_loop (lhs rhs : CharPtr) (size : Nat) : Option Bool :=
  StrEquals_loop_from lhs rhs 0 size

/-- The pre-C++14 body of `detail::StrEquals`:
`(size == 0) ? (lhs[0] == rhs[0])
             : (lhs[size - 1] == rhs[size - 1] && StrEquals(lhs, rhs, size - 1))`. -/
def StrEquals_rec (lhs rhs : CharPtr) : Nat → Option Bool
  | 0 =>
    match lhs.read 0, rhs.read 0 with
    | some a, some b => some (a == b)
    | _, _ => none
  | n + 1 =>
    match lhs.read n, rhs.read n with
    | some a, some b => if a = b then StrEquals_rec lhs rhs n else some false
    | _, _ => none

/-- The function `detail::StrEquals`; `has_constexpr14` says whether
`NAMEOF_HAS_CONSTEXPR14` is defined. -/
def StrEquals (has_constexpr14 : Bool) (lhs rhs : CharPtr) (size : Nat) : Option Bool :=
  if has_constexpr14 then StrEquals_loop lhs rhs size else StrEquals_rec lhs rhs size

end detail

/-! ## The slice `cstring` -/

/-- The class `cstring`: a pointer and a length. -/
structure cstring where
  str_ : CharPtr
  size_ : Nat
deriving DecidableEq

/-- The exception `std::out_of_range` with its message. -/
inductive Exception where
  | out_of_range (what : String)
deriving DecidableEq

namespace cstring

/-- The constructor `cstring(str, size, prefix, suffix)`:
`str_{str + prefix}, size_{size - prefix - suffix}`. -/
def ctor (str : CharPtr) (size prefix_ suffix_ : Nat) : cstring :=
  { str_ := str.add prefix_, size_ := size_sub (size_sub size prefix_) suffix_ }

/-- The member `size()`. -/
def size (s : cstring) : Nat := s.size_

/-- The member `operator[]`: `str_[i]`, unchecked against `size_`. -/
def index (s : cstring) (i : Nat) : Option Char := s.str_.read i

/-- The member `at(i)`: `str_[i]` when `i < size_`, otherwise
`throw std::out_of_range("cstring::at()")`. -/
def «at» (s : cstring) (i : Nat) : Except Exception (Option Char) :=
  if i < s.size_ then .ok (s.str_.read i) else .error (.out_of_range "cstring::at()")

/-- The member `back()`: `str_[size_ - 1]`. -/
def back (s : cstring) : Option Char := s.str_.read (size_sub s.size_ 1)

/-- The member `remove_prefix(n)`: `{str_ + n, size_ - n}`. -/
def remove_prefix (s : cstring) (n : Nat) : cstring :=
  ctor (s.str_.add n) (size_sub s.size_ n) 0 0

/-- The member `remove_suffix(n)`: `{str_, size_ - n}`. -/
def remove_suffix (s : cstring) (n : Nat) : cstring :=
  ctor s.str_ (size_sub s.size_ n) 0 0

/-- The member `add_suffix(n)`: `{str_, size_ + n}`. -/
def add_suffix (s : cstring) (n : Nat) : cstring :=
  ctor s.str_ (size_add s.size_ n) 0 0

/-- The friend `operator==`:
`lhs.size_ == rhs.size_ && detail::StrEquals(lhs.str_, rhs.str_, lhs.size_)`. -/
def eq (has_constexpr14 : Bool) (lhs rhs : cstring) : Option Bool :=
  if lhs.size_ = rhs.size_ then detail.StrEquals has_constexpr14 lhs.str_ rhs.str_ lhs.size_
  else some false

/-- The friend `operator!=`: `!(lhs == rhs)`. -/
def ne (has_constexpr14 : Bool) (lhs rhs : cstring) : Option Bool :=
  (eq has_constexpr14 lhs rhs).map fun b => !b

/-- The library function `std::char_traits<char>::compare(s1, s2, count)`, at
index `i` with `n` characters left: the first index where the characters
differ decides, the characters compared as `unsigned char`.  The C++ standard
fixes the sign of the result only; here it is `-1`, `0` or `1`. -/
def char_traits_compare_from (s1 s2 : CharPtr) : Nat → Nat → Option Int
  | _, 0 => some 0
  | i, n + 1 =>
    match s1.read i, s2.read i with
    | some a, some b =>
      if a < b then some (-1)
      else if b < a then some 1
      else char_traits_compare_from s1 s2 (i + 1) n
    | _, _ => none

/-- The library function `std::char_traits<char>::compare(s1, s2, count)`. -/
def char_traits_compare (s1 s2 : CharPtr) (count : Nat) : Option Int :=
  char_traits_compare_from s1 s2 0 count

/-- The member `compare(other)`: the result of `char_traits<char>::compare` on
the common length when it is not 0, otherwise
`(size_ == other.size_) ? 0 : ((size_ < other.size_) ? -1 : 1)`. -/
def compare (s other : cstring) : Option Int :=
  match char_traits_compare s.str_ other.str_
      (if other.size_ < s.size_ then other.size_ else s.size_) with
  | none => none
  | some result =>
    if result ≠ 0 then some result
    else some (if s.size_ = other.size_ then 0 else if s.size_ < other.size_ then -1 else 1)

/-- The constructor `cstring(const std::string& str)`:
`cstring{str.data(), str.size(), 0, 0}`.  The owned string is the list of its
characters; `data()` points at them, and the terminating null follows. -/
def of_std_string (str : List Char) : cstring :=
  ctor { mem := str ++ ['\x00'], pos := 0 } str.length 0 0

/-- The conversion `operator std::string()`: `std::string(str_, size_)`, a copy
of the `size_` characters at `str_`; `none` when they are not all inside the
array. -/
def std_string (s : cstring) : Option (List Char) :=
  if s.str_.pos + s.size_ ≤ s.str_.mem.length then
    some ((s.str_.mem.drop s.str_.pos).take s.size_)
  else none

end cstring

namespace detail

/-! ## Character classes -/

/-- The predicate `detail::IsLexeme`: true for a character that is NOT a
digit, a letter or an underscore. -/
def IsLexeme (s : Char) : Bool :=
  !((s ≥ '0' && s ≤ '9') || (s ≥ 'a' && s ≤ 'z') || (s ≥ 'A' && s ≤ 'Z') || s == '_')

/-- The predicate `detail::IsBracket`. -/
def IsBracket (s : Char) : Bool :=
  s == ')' || s == '}' || s == '>' || s == '(' || s == '{' || s == '<'

/-! ## `NameofPretty`, the loop-based (C++14) body -/

/-- First loop of `NameofPretty`: `for (i = name.size(), h = 0, s = 0; i > 0; --i)`,
entered with loop variable `i + 1`, so that `name[i - 1]` of the source is
`name.index i` here.  The result is the value of `name` after the loop. -/
def NameofPretty_loop1 (name : cstring) : Nat → Nat → Nat → Option cstring
  | 0, _, _ => some name
  | i + 1, h, s =>
    match name.index i with
    | none => none
    | some c =>
      if h = 0 ∧ IsLexeme c = true ∧ IsBracket c = false then
        NameofPretty_loop1 name i h (s + 1)
      else if c = ')' ∨ c = '}' then
        NameofPretty_loop1 name i (size_add h 1) (s + 1)
      else if c = '(' ∨ c = '{' then
        NameofPretty_loop1 name i (size_sub h 1) (s + 1)
      else if h = 0 then
        some (name.remove_suffix s)
      else
        NameofPretty_loop1 name i h (s + 1)

/-- Second loop of `NameofPretty`: `for (i = name.size(), h = 0; i > 0; --i)`
over the outer `s`.  The result is the value of `s` after the loop. -/
def NameofPretty_loop2 (name : cstring) : Nat → Nat → Nat → Option Nat
  | 0, _, s => some s
  | i + 1, h, s =>
    match name.index i with
    | none => none
    | some c =>
      if c = '>' then
        NameofPretty_loop2 name i (size_add h 1) (s + 1)
      else if c = '<' then
        NameofPretty_loop2 name i (size_sub h 1) (s + 1)
      else if h = 0 then
        some s
      else
        NameofPretty_loop2 name i h (s + 1)

/-- Third loop of `NameofPretty` and the final `return`:
`for (i = name.size() - s; i > 0; --i)`. -/
def NameofPretty_loop3 (name : cstring) (with_suffix : Bool) (s : Nat) : Nat → Option cstring
  | 0 => some (name.remove_suffix (if with_suffix then 0 else s))
  | i + 1 =>
    match name.index i with
    | none => none
    | some c =>
      if IsLexeme c = true then
        some ( cstring.remove_suffix ( cstring.remove_prefix name (i + 1))
          (if with_suffix then 0 else s))
      else
        NameofPretty_loop3 name with_suffix s i

/-- The function `detail::NameofPretty(name, with_suffix)`, C++14 body. -/
def NameofPretty (name : cstring) (with_suffix : Bool) : Option cstring :=
  match NameofPretty_loop1 name name.size 0 0 with
  | none => none
  | some name1 =>
    match NameofPretty_loop2 name1 name1.size 0 0 with
    | none => none
    | some s => NameofPretty_loop3 name1 with_suffix s (size_sub name1.size s)

/-- Whether the first loop of `NameofPretty`, entered like `NameofPretty_loop1`,
is left through its `break`: it met its stopping character before `i` reached
0.  The control flow is that of `NameofPretty_loop1`. -/
def NameofPretty_loop1_breaks (name : cstring) : Nat → Nat → Bool
  | 0, _ => false
  | i + 1, h =>
    match name.index i with
    | none => false
    | some c =>
      if h = 0 ∧ IsLexeme c = true ∧ IsBracket c = false then
        NameofPretty_loop1_breaks name i h
      else if c = ')' ∨ c = '}' then
        NameofPretty_loop1_breaks name i (size_add h 1)
      else if c = '(' ∨ c = '{' then
        NameofPretty_loop1_breaks name i (size_sub h 1)
      else if h = 0 then
        true
      else
        NameofPretty_loop1_breaks name i h

/-- Whether the second loop of `NameofPretty`, entered like
`NameofPretty_loop2`, is left through its `break`.  The control flow is that
of `NameofPretty_loop2`. -/
def NameofPretty_loop2_breaks (name : cstring) : Nat → Nat → Bool
  | 0, _ => false
  | i + 1, h =>
    match name.index i with
    | none => false
    | some c =>
      if c = '>' then
        NameofPretty_loop2_breaks name i (size_add h 1)
      else if c = '<' then
        NameofPretty_loop2_breaks name i (size_sub h 1)
      else if h = 0 then
        true
      else
        NameofPretty_loop2_breaks name i h

/-- Both suffix scans of `NameofPretty(name, _)` meet their stopping character
before the start of the text: the first loop breaks, and the second loop, on
the text the first one leaves, breaks too. -/
def NameofPretty_scans_break (name : cstring) : Bool :=
  NameofPretty_loop1_breaks name name.size 0 &&
    match NameofPretty_loop1 name name.size 0 0 with
    | none => false
    | some name1 => NameofPretty_loop2_breaks name1 name1.size 0

/-! ## `NameofPretty`, the recursive (pre-C++14) body

The recursion of the source has no bound of its own; `fuel` bounds the number
of calls of each function, and `none` is also the result when it runs out. -/

namespace cxx11

/-- The function `detail::RemoveSuffix(name, h)`. -/
def RemoveSuffix : Nat → cstring → Nat → Option cstring
  | 0, _, _ => none
  | fuel + 1, name, h =>
    match name.back with
    | none => none
    | some c =>
      if h = 0 ∧ IsLexeme c = true ∧ IsBracket c = false then
        RemoveSuffix fuel (name.remove_suffix 1) h
      else if c = ')' ∨ c = '}' then
        RemoveSuffix fuel (name.remove_suffix 1) (size_add h 1)
      else if c = '(' ∨ c = '{' then
        RemoveSuffix fuel (name.remove_suffix 1) (size_sub h 1)
      else if h = 0 then
        some name
      else
        RemoveSuffix fuel (name.remove_suffix 1) h

/-- The function `detail::FindSuffix(name, h, s)`; the character read is
`name[name.size() - 1 - s]`. -/
def FindSuffix : Nat → cstring → Nat → Nat → Option Nat
  | 0, _, _, _ => none
  | fuel + 1, name, h, s =>
    match name.index (size_sub (size_sub name.size 1) s) with
    | none => none
    | some c =>
      if c = '>' then
        FindSuffix fuel name (size_add h 1) (size_add s 1)
      else if c = '<' then
        FindSuffix fuel name (size_sub h 1) (size_add s 1)
      else if h = 0 then
        some s
      else
        FindSuffix fuel name h (size_add s 1)

/-- The function `detail::RemovePrefix(name, p)`:
`p == name.size() ? name : IsLexeme(name[name.size() - 1 - p])
   ? name.remove_prefix(name.size() - p) : RemovePrefix(name, p + 1)`. -/
def RemovePrefix : Nat → cstring → Nat → Option cstring
  | 0, _, _ => none
  | fuel + 1, name, p =>
    if p = name.size then some name
    else
      match name.index (size_sub (size_sub name.size 1) p) with
      | none => none
      | some c =>
        if IsLexeme c = true then
          some ( cstring.remove_prefix name (size_sub name.size p))
        else
          RemovePrefix fuel name (size_add p 1)

/-- The function `detail::NameofPrettyImpl_(name, s, with_suffix)`:
`RemovePrefix(name.remove_suffix(s)).add_suffix(with_suffix ? s : 0)`. -/
def NameofPrettyImpl_ (fuel : Nat) (name : cstring) (s : Nat) (with_suffix : Bool) :
    Option cstring :=
  (RemovePrefix fuel (name.remove_suffix s) 0).map fun r =>
    r.add_suffix (if with_suffix then s else 0)

/-- The function `detail::NameofPrettyImpl(name, with_suffix)`:
`NameofPrettyImpl_(name, FindSuffix(name), with_suffix)`. -/
def NameofPrettyImpl (fuel : Nat) (name : cstring) (with_suffix : Bool) : Option cstring :=
  match FindSuffix fuel name 0 0 with
  | none => none
  | some s => NameofPrettyImpl_ fuel name s with_suffix

/-- The function `detail::NameofPretty(name, with_suffix)`, pre-C++14 body:
`NameofPrettyImpl(RemoveSuffix(name), with_suffix)`. -/
def NameofPretty (fuel : Nat) (name : cstring) (with_suffix : Bool) : Option cstring :=
  match RemoveSuffix fuel name 0 with
  | none => none
  | some name1 => NameofPrettyImpl fuel name1 with_suffix

end cxx11

/-! ## `NameofTypePretty`, MSVC -/

namespace msvc

/-- The function `detail::RemoveSpaceSuffix`:
`(name.back() == ' ') ? RemoveSpaceSuffix(name.remove_suffix(1)) : name`.
The recursion of the source has no bound of its own; `fuel` bounds the number
of calls, and `none` is also the result when it runs out. -/
def RemoveSpaceSuffix : Nat → cstring → Option cstring
  | 0, _ => none
  | fuel + 1, name =>
    match name.back with
    | none => none
    | some c => if c = ' ' then RemoveSpaceSuffix fuel (name.remove_suffix 1) else some name

/-- The chain `name[k] == c0 && name[k + 1] == c1 && ...` of the three
keyword tests, evaluated left to right and stopping at the first mismatch. -/
def chars_at (name : cstring) : Nat → List Char → Option Bool
  | _, [] => some true
  | k, c :: cs =>
    match name.index k with
    | none => none
    | some d => if d = c then chars_at name (k + 1) cs else some false

/-- The function `detail::RemoveClassPrefix`; `sizeof("class")` is 6. -/
def RemoveClassPrefix (name : cstring) : Option cstring :=
  if name.size > 6 then
    match chars_at name 0 ['c', 'l', 'a', 's', 's', ' '] with
    | none => none
    | some true => some ( cstring.remove_prefix name 6)
    | some false => some name
  else some name

/-- The function `detail::RemoveEnumPrefix`; `sizeof("enum")` is 5. -/
def RemoveEnumPrefix (name : cstring) : Option cstring :=
  if name.size > 5 then
    match chars_at name 0 ['e', 'n', 'u', 'm', ' '] with
    | none => none
    | some true => some ( cstring.remove_prefix name 5)
    | some false => some name
  else some name

/-- The function `detail::RemoveStructPrefix`; `sizeof("struct")` is 7. -/
def RemoveStructPrefix (name : cstring) : Option cstring :=
  if name.size > 7 then
    match chars_at name 0 ['s', 't', 'r', 'u', 'c', 't', ' '] with
    | none => none
    | some true => some ( cstring.remove_prefix name 7)
    | some false => some name
  else some name

/-- The MSVC function `detail::NameofTypePretty(name)`:
`RemoveClassPrefix(RemoveStructPrefix(RemoveEnumPrefix(RemoveSpaceSuffix(name))))`. -/
def NameofTypePretty (fuel : Nat) (name : cstring) : Option cstring :=
  (((RemoveSpaceSuffix fuel name).bind RemoveEnumPrefix).bind RemoveStructPrefix).bind
    RemoveClassPrefix

end msvc

/-! ## `NameofTypePretty`, Clang and GCC -/

namespace clang_gcc

/-- The Clang/GCC function `detail::NameofTypePretty(str, size, prefix, suffix)`:
`{str, size, prefix, suffix + ((str[size - suffix - 1] == ' ') ? 1 : 0)}`. -/
def NameofTypePretty (str : CharPtr) (size prefix_ suffix_ : Nat) : Option cstring :=
  match str.read (size_sub (size_sub size suffix_) 1) with
  | none => none
  | some c => some (cstring.ctor str size prefix_ (size_add suffix_ (if c = ' ' then 1 else 0)))

end clang_gcc

end detail

/-- The function `Nameof<T>(name, size, with_suffix)`:
`detail::NameofPretty({name, size}, with_suffix)`. -/
def Nameof (name : CharPtr) (size : Nat) (with_suffix : Bool) : Option cstring :=
  detail.NameofPretty (cstring.ctor name size 0 0) with_suffix

/-- The function `NameofRaw<T>(name, size)`: `{name, size}`. -/
def NameofRaw (name : CharPtr) (size : Nat) : cstring :=
  cstring.ctor name size 0 0

/-! ## Vocabulary of the properties -/

/-- The slice over the `text.length` characters `text` stored in the array
`pre ++ text ++ post`: what `cstring{p, text.length}` is for the pointer `p`
to the first character of `text`. -/
def slice_of (pre text post : List Char) : cstring :=
  { str_ := { mem := pre ++ text ++ post, pos := pre.length }, size_ := text.length }

/-- A letter, a digit or an underscore. -/
def isIdentChar (c : Char) : Bool := c.isAlphanum || c == '_'

/-- A non-empty run of letters, digits and underscores. -/
def isIdentifier (x : List Char) : Bool := !x.isEmpty && x.all isIdentChar

/-- A qualifier made of the segments `names`: each name followed by `::`. -/
def qualifier (names : List (List Char)) : List Char :=
  (names.map fun n => n ++ [':', ':']).flatten

/-- Bracket balance, scanning left to right at nesting depth `d`: an opening
bracket goes one level down, a closing bracket needs an open level and leaves
it, and the scan ends at depth 0. -/
def balanced (isOpen isClose : Char → Bool) : List Char → Nat → Bool
  | [], d => d == 0
  | c :: cs, d =>
    if isOpen c then balanced isOpen isClose cs (d + 1)
    else if isClose c then d != 0 && balanced isOpen isClose cs (d - 1)
    else balanced isOpen isClose cs d

/-- Net nesting of a text: opening brackets minus closing brackets. -/
def depth (isOpen isClose : Char → Bool) : List Char → Int
  | [] => 0
  | c :: cs => (if isOpen c then 1 else if isClose c then -1 else 0) + depth isOpen isClose cs

/-- An opening round or curly bracket. -/
def isCallOpen (c : Char) : Bool := c == '(' || c == '{'

/-- A closing round or curly bracket. -/
def isCallClose (c : Char) : Bool := c == ')' || c == '}'

/-- A call suffix: one group that opens with `(` or `{`, closes with `)` or
`}`, and whose round and curly brackets are balanced inside. -/
def isCallSuffix (c : List Char) : Bool :=
  match c with
  | [] => false
  | o :: rest =>
    isCallOpen o && !rest.isEmpty && isCallClose (rest.getLast?.getD ' ') &&
      balanced isCallOpen isCallClose rest.dropLast 0

/-- An opening angle bracket. -/
def isAngleOpen (c : Char) : Bool := c == '<'

/-- A closing angle bracket. -/
def isAngleClose (c : Char) : Bool := c == '>'

/-- A template suffix: `<`, then text with balanced angle brackets, then `>`. -/
def isTemplateSuffix (t : List Char) : Bool :=
  match t with
  | [] => false
  | o :: rest =>
    isAngleOpen o && !rest.isEmpty && isAngleClose (rest.getLast?.getD ' ') &&
      balanced isAngleOpen isAngleClose rest.dropLast 0

/-- The text `q` is empty or ends in a character that is not a letter, a digit
or an underscore. -/
def endsOutsideIdent (q : List Char) : Bool :=
  match q.getLast? with
  | none => true
  | some c => !isIdentChar c

/-- The text `t` without the leading keyword token `kw` when `t` begins with
`kw` and goes on after it; `t` itself otherwise. -/
def strip_keyword (kw t : List Char) : List Char :=
  if kw.length < t.length ∧ kw.isPrefixOf t = true then t.drop kw.length else t

/-- The keyword token `class ` with its space. -/
def kw_class : List Char := ['c', 'l', 'a', 's', 's', ' ']

/-- The keyword token `struct ` with its space. -/
def kw_struct : List Char := ['s', 't', 'r', 'u', 'c', 't', ' ']

/-- The keyword token `enum ` with its space. -/
def kw_enum : List Char := ['e', 'n', 'u', 'm', ' ']

/-- Three-way dictionary comparison of two texts: `-1`, `0` or `1` as the
first text comes before, is, or comes after the second; the first character
that differs decides, and an initial part comes before the longer text. -/
def lex_cmp : List Char → List Char → Int
  | [], [] => 0
  | [], _ :: _ => -1
  | _ :: _, [] => 1
  | a :: as, b :: bs => if a < b then -1 else if b < a then 1 else lex_cmp as bs

/-! ## Basic facts: `size_t` arithmetic and slices over a text -/

theorem size_sub_of_le {a b : Nat} (hb : b ≤ a) (ha : a < SIZE_MOD) : size_sub a b = a - b := by
  unfold size_sub SIZE_MOD at *
  omega

theorem size_sub_zero {a : Nat} (ha : a < SIZE_MOD) : size_sub a 0 = a := by
  rw [size_sub_of_le (Nat.zero_le a) ha]; rfl

theorem size_add_of_lt {a b : Nat} (h : a + b < SIZE_MOD) : size_add a b = a + b := by
  unfold size_add
  exact Nat.mod_eq_of_lt h

theorem size_sub_lt (a b : Nat) : size_sub a b < SIZE_MOD := by
  unfold size_sub
  exact Nat.mod_lt _ (by unfold SIZE_MOD; positivity)

theorem ctor_zero_zero {p : CharPtr} {n : Nat} (hn : n < SIZE_MOD) :
    cstring.ctor p n 0 0 = { str_ := p, size_ := n } := by
  simp [cstring.ctor, CharPtr.add, size_sub_zero hn]

theorem index_slice_of (pre text post : List Char) {i : Nat} (hi : i < text.length) :
    (slice_of pre text post).index i = text[i]? := by
  simp only [slice_of, cstring.index, CharPtr.read, List.append_assoc]
  rw [List.getElem?_append_right (Nat.le_add_right _ _), Nat.add_sub_cancel_left,
    List.getElem?_append_left hi]

theorem index_slice_of_mid (pre a b post : List Char) (c : Char) :
    (slice_of pre (a ++ c :: b) post).index a.length = some c := by
  rw [index_slice_of _ _ _ (by simp), List.getElem?_append_right (Nat.le_refl _)]
  simp

theorem std_string_slice_of (pre text post : List Char) :
    (slice_of pre text post).std_string = some text := by
  simp [slice_of, cstring.std_string, List.append_assoc]

theorem remove_suffix_slice_of (pre a b post : List Char) (h : (a ++ b).length < SIZE_MOD) :
    (slice_of pre (a ++ b) post).remove_suffix b.length = slice_of pre a (b ++ post) := by
  have h1 : (a ++ b).length = a.length + b.length := List.length_append a b
  unfold cstring.remove_suffix
  rw [ctor_zero_zero (size_sub_lt _ _)]
  simp only [slice_of]
  rw [size_sub_of_le (by omega) h]
  simp [List.append_assoc]

theorem remove_prefix_slice_of (pre a b post : List Char) (h : (a ++ b).length < SIZE_MOD) :
    cstring.remove_prefix (slice_of pre (a ++ b) post) a.length =
      slice_of (pre ++ a) b post := by
  have h1 : (a ++ b).length = a.length + b.length := List.length_append a b
  unfold cstring.remove_prefix
  rw [ctor_zero_zero (size_sub_lt _ _)]
  simp only [slice_of]
  rw [size_sub_of_le (by omega) h]
  simp [CharPtr.add, List.append_assoc]

theorem remove_suffix_zero_slice_of (pre a post : List Char) (h : a.length < SIZE_MOD) :
    (slice_of pre a post).remove_suffix 0 = slice_of pre a post := by
  have := remove_suffix_slice_of pre a [] post (by simpa using h)
  simpa using this

/-! ## Bracket balance -/

theorem depth_append (o c : Char → Bool) (u v : List Char) :
    depth o c (u ++ v) = depth o c u + depth o c v := by
  induction u with
  | nil => simp [depth]
  | cons x u ih => simp [depth, ih, add_assoc]

theorem balanced_depth (o c : Char → Bool) : ∀ (w : List Char) (d : Nat),
    balanced o c w d = true →
      depth o c w = -(d : Int) ∧ ∀ k, 0 ≤ (d : Int) + depth o c (w.take k) := by
  intro w
  induction w with
  | nil => intro d hb; simp [balanced] at hb; simp [depth, hb]
  | cons x w ih =>
    intro d hb
    unfold balanced at hb
    by_cases ho : o x = true
    · simp only [ho, if_true] at hb
      obtain ⟨h1, h2⟩ := ih (d + 1) hb
      refine ⟨by simp only [depth, ho, if_true, h1]; push_cast; omega, fun k => ?_⟩
      cases k with
      | zero => simp [depth]
      | succ k =>
        have := h2 k
        simp only [List.take_succ_cons, depth, ho, if_true]
        push_cast at this
        omega
    · by_cases hc : c x = true
      · simp [ho, hc] at hb
        obtain ⟨hd, hb⟩ := hb
        obtain ⟨h1, h2⟩ := ih (d - 1) hb
        have hd1 : ((d - 1 : Nat) : Int) = (d : Int) - 1 := by omega
        refine ⟨by simp only [depth, ho, hc, if_true, h1, Bool.false_eq_true, if_false]; omega,
          fun k => ?_⟩
        cases k with
        | zero => simp [depth]
        | succ k =>
          have := h2 k
          simp only [List.take_succ_cons, depth, ho, hc, if_true, Bool.false_eq_true, if_false]
          omega
      · simp [ho, hc] at hb
        obtain ⟨h1, h2⟩ := ih d hb
        refine ⟨by simp only [depth, ho, hc, h1]; simp, fun k => ?_⟩
        cases k with
        | zero => simp [depth]
        | succ k =>
          have := h2 k
          simp only [List.take_succ_cons, depth, ho, hc, Bool.false_eq_true, if_false]
          omega

/-- In a balanced text every suffix closes at least as many brackets as it
opens. -/
theorem balanced_drop (o c : Char → Bool) (w : List Char) (hb : balanced o c w 0 = true)
    (k : Nat) : depth o c (w.drop k) ≤ 0 := by
  obtain ⟨h1, h2⟩ := balanced_depth o c w 0 hb
  have h3 := depth_append o c (w.take k) (w.drop k)
  rw [List.take_append_drop] at h3
  have := h2 k
  simp at h1 this
  omega

/-! ## Character classes -/

open detail

theorem isLexeme_eq_not_isIdentChar (c : Char) : IsLexeme c = !isIdentChar c := by
  simp only [IsLexeme, isIdentChar, Char.isAlphanum, Char.isAlpha, Char.isUpper, Char.isLower,
    Char.isDigit, ge_iff_le, Char.le_def]
  have h0 : '0'.val = 48 := rfl
  have h9 : '9'.val = 57 := rfl
  have ha : 'a'.val = 97 := rfl
  have hz : 'z'.val = 122 := rfl
  have hA : 'A'.val = 65 := rfl
  have hZ : 'Z'.val = 90 := rfl
  rw [h0, h9, ha, hz, hA, hZ]
  congr 1
  ac_rfl

theorem isLexeme_of_isCallClose {c : Char} (h : c = ')' ∨ c = '}') :
    IsLexeme c = true ∧ IsBracket c = true := by
  rcases h with h | h <;> subst h <;> decide

theorem isLexeme_of_isCallOpen {c : Char} (h : c = '(' ∨ c = '{') :
    IsLexeme c = true ∧ IsBracket c = true ∧ ¬ (c = ')' ∨ c = '}') := by
  rcases h with h | h <;> subst h <;> decide

theorem isCallOpen_iff (c : Char) : isCallOpen c = true ↔ (c = '(' ∨ c = '{') := by
  simp [isCallOpen]

theorem isCallClose_iff (c : Char) : isCallClose c = true ↔ (c = ')' ∨ c = '}') := by
  simp [isCallClose]

/-- A character of an identifier is none of the six brackets. -/
theorem ident_not_bracket {c : Char} (h : IsLexeme c = false) :
    ¬ (c = ')' ∨ c = '}') ∧ ¬ (c = '(' ∨ c = '{') ∧ c ≠ '>' ∧ c ≠ '<' ∧ c ≠ ':' := by
  refine ⟨?_, ?_, ?_, ?_, ?_⟩
  · rintro (rfl | rfl) <;> revert h <;> decide
  · rintro (rfl | rfl) <;> revert h <;> decide
  · rintro rfl; revert h; decide
  · rintro rfl; revert h; decide
  · rintro rfl; revert h; decide

/-! ## The first loop of `NameofPretty` -/

theorem loop1_close {name : cstring} {i : Nat} {c : Char} (hi : name.index i = some c)
    (hc : c = ')' ∨ c = '}') (h s : Nat) :
    NameofPretty_loop1 name (i + 1) h s = NameofPretty_loop1 name i (size_add h 1) (s + 1) := by
  have h1 := isLexeme_of_isCallClose hc
  simp [NameofPretty_loop1, hi, h1.2, hc]

theorem loop1_open {name : cstring} {i : Nat} {c : Char} (hi : name.index i = some c)
    (hc : c = '(' ∨ c = '{') (h s : Nat) :
    NameofPretty_loop1 name (i + 1) h s = NameofPretty_loop1 name i (size_sub h 1) (s + 1) := by
  have h1 := isLexeme_of_isCallOpen hc
  simp [NameofPretty_loop1, hi, h1.2.1, h1.2.2, hc]

theorem loop1_inside {name : cstring} {i : Nat} {c : Char} (hi : name.index i = some c)
    (hc1 : ¬ (c = ')' ∨ c = '}')) (hc2 : ¬ (c = '(' ∨ c = '{')) {h : Nat} (hh : h ≠ 0)
    (s : Nat) :
    NameofPretty_loop1 name (i + 1) h s = NameofPretty_loop1 name i h (s + 1) := by
  simp [NameofPretty_loop1, hi, hh, hc1, hc2]

theorem loop1_skip {name : cstring} {i : Nat} {c : Char} (hi : name.index i = some c)
    (hc : IsLexeme c = true) (hb : IsBracket c = false) (s : Nat) :
    NameofPretty_loop1 name (i + 1) 0 s = NameofPretty_loop1 name i 0 (s + 1) := by
  simp [NameofPretty_loop1, hi, hc, hb]

theorem loop1_stop {name : cstring} {i : Nat} {c : Char} (hi : name.index i = some c)
    (hc : IsLexeme c = false ∨ c = '>' ∨ c = '<') (s : Nat) :
    NameofPretty_loop1 name (i + 1) 0 s = some (name.remove_suffix s) := by
  rcases hc with hc | hc | hc
  · have h1 := ident_not_bracket hc
    simp [NameofPretty_loop1, hi, hc, h1.1, h1.2.1]
  · subst hc
    simp [NameofPretty_loop1, hi, IsBracket]
  · subst hc
    simp [NameofPretty_loop1, hi, IsBracket]

/-- Inside a bracket group (`h ≥ 1` throughout) the first loop walks back over
the text `w`, adding its length to `s` and its net nesting to `h`. -/
theorem loop1_nested (pre post : List Char) : ∀ (w a b : List Char) (h s : Nat),
    (a ++ w ++ b).length < SIZE_MOD → h + w.length < SIZE_MOD →
    (∀ k, 1 ≤ k → k ≤ w.length → 1 ≤ (h : Int) - depth isCallOpen isCallClose (w.drop k)) →
    NameofPretty_loop1 (slice_of pre (a ++ w ++ b) post) (a.length + w.length) h s =
      NameofPretty_loop1 (slice_of pre (a ++ w ++ b) post) a.length
        ((h : Int) - depth isCallOpen isCallClose w).toNat (s + w.length) := by
  intro w
  induction w using List.reverseRecOn with
  | nil => intro a b h s _ _ _; simp [depth]
  | append_singleton w c ih =>
    intro a b h s hlen hh hk
    have htext : a ++ (w ++ [c]) ++ b = a ++ w ++ c :: b := by simp
    rw [htext] at hlen ⊢
    have hidx : (slice_of pre (a ++ w ++ c :: b) post).index (a.length + w.length) = some c := by
      have := index_slice_of_mid pre (a ++ w) b post c
      simpa using this
    have hlen1 : (w ++ [c]).length = w.length + 1 := by simp
    have hpos : 1 ≤ h := by
      have := hk (w.length + 1) (by omega) (by omega)
      simp [depth] at this
      omega
    have hdrop : ∀ k, k ≤ w.length →
        depth isCallOpen isCallClose ((w ++ [c]).drop k) =
          depth isCallOpen isCallClose (w.drop k) + depth isCallOpen isCallClose [c] := by
      intro k hk1
      rw [List.drop_append_of_le_length hk1, depth_append]
    have hdw : depth isCallOpen isCallClose (w ++ [c]) =
        depth isCallOpen isCallClose w + depth isCallOpen isCallClose [c] := depth_append _ _ _ _
    rw [hlen1, ← Nat.add_assoc]
    by_cases hcl : c = ')' ∨ c = '}'
    · have hd : depth isCallOpen isCallClose [c] = -1 := by
        rcases hcl with rfl | rfl <;> decide
      rw [loop1_close hidx hcl, size_add_of_lt (by omega), ih a (c :: b) (h + 1) (s + 1) hlen
        (by omega) (by
          intro k h1 h2
          have := hk k h1 (by omega)
          rw [hdrop k h2, hd] at this
          push_cast
          omega)]
      rw [hdw, hd]
      push_cast
      congr 1
      · congr 1; omega
      · omega
    · by_cases hop : c = '(' ∨ c = '{'
      · have hd : depth isCallOpen isCallClose [c] = 1 := by
          rcases hop with rfl | rfl <;> decide
        have hcast : ((h - 1 : Nat) : Int) = (h : Int) - 1 := by omega
        rw [loop1_open hidx hop, size_sub_of_le hpos (by omega), ih a (c :: b) (h - 1) (s + 1)
          hlen (by omega) (by
            intro k h1 h2
            have := hk k h1 (by omega)
            rw [hdrop k h2, hd] at this
            rw [hcast]
            omega)]
        rw [hdw, hd, hcast]
        congr 1
        · congr 1; omega
        · omega
      · have hd : depth isCallOpen isCallClose [c] = 0 := by
          simp [depth, isCallOpen_iff, isCallClose_iff, hcl, hop]
        rw [loop1_inside hidx hcl hop (by omega), ih a (c :: b) h (s + 1) hlen (by omega) (by
            intro k h1 h2
            have := hk k h1 (by omega)
            rw [hdrop k h2, hd] at this
            omega)]
        rw [hdw, hd]
        congr 1
        · congr 1; omega
        · omega

/-! ## The second loop of `NameofPretty` -/

theorem loop2_close {name : cstring} {i : Nat} (hi : name.index i = some '>') (h s : Nat) :
    NameofPretty_loop2 name (i + 1) h s = NameofPretty_loop2 name i (size_add h 1) (s + 1) := by
  simp [NameofPretty_loop2, hi]

theorem loop2_open {name : cstring} {i : Nat} (hi : name.index i = some '<') (h s : Nat) :
    NameofPretty_loop2 name (i + 1) h s = NameofPretty_loop2 name i (size_sub h 1) (s + 1) := by
  simp [NameofPretty_loop2, hi]

theorem loop2_inside {name : cstring} {i : Nat} {c : Char} (hi : name.index i = some c)
    (hc1 : c ≠ '>') (hc2 : c ≠ '<') {h : Nat} (hh : h ≠ 0) (s : Nat) :
    NameofPretty_loop2 name (i + 1) h s = NameofPretty_loop2 name i h (s + 1) := by
  simp [NameofPretty_loop2, hi, hh, hc1, hc2]

theorem loop2_stop {name : cstring} {i : Nat} {c : Char} (hi : name.index i = some c)
    (hc1 : c ≠ '>') (hc2 : c ≠ '<') (s : Nat) :
    NameofPretty_loop2 name (i + 1) 0 s = some s := by
  simp [NameofPretty_loop2, hi, hc1, hc2]

/-- Inside a template-argument list (`h ≥ 1` throughout) the second loop walks
back over the text `w`, adding its length to `s` and its net nesting to `h`. -/
theorem loop2_nested (pre post : List Char) : ∀ (w a b : List Char) (h s : Nat),
    (a ++ w ++ b).length < SIZE_MOD → h + w.length < SIZE_MOD →
    (∀ k, 1 ≤ k → k ≤ w.length → 1 ≤ (h : Int) - depth isAngleOpen isAngleClose (w.drop k)) →
    NameofPretty_loop2 (slice_of pre (a ++ w ++ b) post) (a.length + w.length) h s =
      NameofPretty_loop2 (slice_of pre (a ++ w ++ b) post) a.length
        ((h : Int) - depth isAngleOpen isAngleClose w).toNat (s + w.length) := by
  intro w
  induction w using List.reverseRecOn with
  | nil => intro a b h s _ _ _; simp [depth]
  | append_singleton w c ih =>
    intro a b h s hlen hh hk
    have htext : a ++ (w ++ [c]) ++ b = a ++ w ++ c :: b := by simp
    rw [htext] at hlen ⊢
    have hidx : (slice_of pre (a ++ w ++ c :: b) post).index (a.length + w.length) = some c := by
      have := index_slice_of_mid pre (a ++ w) b post c
      simpa using this
    have hlen1 : (w ++ [c]).length = w.length + 1 := by simp
    have hpos : 1 ≤ h := by
      have := hk (w.length + 1) (by omega) (by omega)
      simp [depth] at this
      omega
    have hdrop : ∀ k, k ≤ w.length →
        depth isAngleOpen isAngleClose ((w ++ [c]).drop k) =
          depth isAngleOpen isAngleClose (w.drop k) + depth isAngleOpen isAngleClose [c] := by
      intro k hk1
      rw [List.drop_append_of_le_length hk1, depth_append]
    have hdw : depth isAngleOpen isAngleClose (w ++ [c]) =
        depth isAngleOpen isAngleClose w + depth isAngleOpen isAngleClose [c] :=
      depth_append _ _ _ _
    rw [hlen1, ← Nat.add_assoc]
    by_cases hcl : c = '>'
    · have hd : depth isAngleOpen isAngleClose [c] = -1 := by subst hcl; decide
      rw [loop2_close (hcl ▸ hidx), size_add_of_lt (by omega), ih a (c :: b) (h + 1) (s + 1) hlen
        (by omega) (by
          intro k h1 h2
          have := hk k h1 (by omega)
          rw [hdrop k h2, hd] at this
          push_cast
          omega)]
      rw [hdw, hd]
      push_cast
      congr 1
      · congr 1; omega
      · omega
    · by_cases hop : c = '<'
      · have hd : depth isAngleOpen isAngleClose [c] = 1 := by subst hop; decide
        have hcast : ((h - 1 : Nat) : Int) = (h : Int) - 1 := by omega
        rw [loop2_open (hop ▸ hidx), size_sub_of_le hpos (by omega),
          ih a (c :: b) (h - 1) (s + 1) hlen (by omega) (by
            intro k h1 h2
            have := hk k h1 (by omega)
            rw [hdrop k h2, hd] at this
            rw [hcast]
            omega)]
        rw [hdw, hd, hcast]
        congr 1
        · congr 1; omega
        · omega
      · have hd : depth isAngleOpen isAngleClose [c] = 0 := by
          simp [depth, isAngleOpen, isAngleClose, hcl, hop]
        rw [loop2_inside hidx hcl hop (by omega), ih a (c :: b) h (s + 1) hlen (by omega) (by
            intro k h1 h2
            have := hk k h1 (by omega)
            rw [hdrop k h2, hd] at this
            omega)]
        rw [hdw, hd]
        congr 1
        · congr 1; omega
        · omega

/-! ## The third loop of `NameofPretty` -/

theorem loop3_stop {name : cstring} {i : Nat} {c : Char} (hi : name.index i = some c)
    (hc : IsLexeme c = true) (ws : Bool) (s : Nat) :
    NameofPretty_loop3 name ws s (i + 1) =
      some ( cstring.remove_suffix ( cstring.remove_prefix name (i + 1))
        (if ws then 0 else s)) := by
  simp [NameofPretty_loop3, hi, hc]

theorem loop3_step {name : cstring} {i : Nat} {c : Char} (hi : name.index i = some c)
    (hc : IsLexeme c = false) (ws : Bool) (s : Nat) :
    NameofPretty_loop3 name ws s (i + 1) = NameofPretty_loop3 name ws s i := by
  simp [NameofPretty_loop3, hi, hc]

/-- The third loop walks back over a run of identifier characters. -/
theorem loop3_ident (pre post : List Char) (ws : Bool) (s : Nat) : ∀ (x a b : List Char),
    (∀ c ∈ x, IsLexeme c = false) →
    NameofPretty_loop3 (slice_of pre (a ++ x ++ b) post) ws s (a.length + x.length) =
      NameofPretty_loop3 (slice_of pre (a ++ x ++ b) post) ws s a.length := by
  intro x
  induction x using List.reverseRecOn with
  | nil => intro a b _; simp
  | append_singleton x c ih =>
    intro a b hx
    have htext : a ++ (x ++ [c]) ++ b = a ++ x ++ c :: b := by simp
    rw [htext]
    have hidx : (slice_of pre (a ++ x ++ c :: b) post).index (a.length + x.length) = some c := by
      have := index_slice_of_mid pre (a ++ x) b post c
      simpa using this
    have hlen1 : (x ++ [c]).length = x.length + 1 := by simp
    rw [hlen1, ← Nat.add_assoc, loop3_step hidx (hx c (by simp))]
    exact ih a (c :: b) (fun d hd => hx d (by simp [hd]))

theorem trim_slice_of (pre q x t post : List Char) (ws : Bool)
    (h : (q ++ x ++ t).length < SIZE_MOD) :
    cstring.remove_suffix ( cstring.remove_prefix (slice_of pre (q ++ x ++ t) post) q.length)
        (if ws then 0 else t.length) =
      slice_of (pre ++ q) (if ws then x ++ t else x) (if ws then post else t ++ post) := by
  rw [List.append_assoc] at h ⊢
  rw [remove_prefix_slice_of pre q (x ++ t) post h]
  have h2 : (x ++ t).length < SIZE_MOD := by simp at h ⊢; omega
  cases ws
  · simpa using remove_suffix_slice_of (pre ++ q) x t post h2
  · simpa using remove_suffix_zero_slice_of (pre ++ q) (x ++ t) post h2

/-- The third loop on `q ++ x ++ t`, entered just before the `s = t.length`
characters of `t`: it returns the identifier run `x` (with `t` when
`with_suffix`), given that `q` is empty or ends outside identifiers. -/
theorem loop3_result (pre q x t post : List Char) (ws : Bool)
    (h : (q ++ x ++ t).length < SIZE_MOD) (hx : ∀ c ∈ x, IsLexeme c = false)
    (hq : ∀ c, q.getLast? = some c → IsLexeme c = true) :
    NameofPretty_loop3 (slice_of pre (q ++ x ++ t) post) ws t.length (q.length + x.length) =
      some (slice_of (pre ++ q) (if ws then x ++ t else x) (if ws then post else t ++ post)) := by
  rw [loop3_ident pre post ws t.length x q t hx]
  rcases List.eq_nil_or_concat q with hq0 | ⟨q1, c, hq1⟩
  · subst hq0
    simp only [List.nil_append, List.length_nil, List.append_nil] at h ⊢
    unfold NameofPretty_loop3
    cases ws
    · simpa using remove_suffix_slice_of pre x t post h
    · simpa using remove_suffix_zero_slice_of pre (x ++ t) post h
  · rw [List.concat_eq_append] at hq1
    subst hq1
    have hc : IsLexeme c = true := hq c (by simp)
    have hidx : (slice_of pre (q1 ++ [c] ++ x ++ t) post).index q1.length = some c := by
      have := index_slice_of_mid pre q1 (x ++ t) post c
      simpa using this
    have hl : (q1 ++ [c]).length = q1.length + 1 := by simp
    rw [hl, loop3_stop hidx hc, ← hl]
    exact congrArg some (trim_slice_of pre (q1 ++ [c]) x t post ws h)

/-! ## `NameofPretty` on `qualifier ++ identifier ++ template suffix ++ call suffix` -/

theorem index_at (pre post text a b : List Char) (c : Char) (i : Nat)
    (ht : text = a ++ c :: b) (hi : i = a.length) :
    (slice_of pre text post).index i = some c := by
  subst ht hi
  exact index_slice_of_mid pre a b post c

theorem bracket_group_split (o c : Char → Bool) (t : List Char)
    (h : (match t with
      | [] => false
      | x :: rest => o x && !rest.isEmpty && c (rest.getLast?.getD ' ') &&
          balanced o c rest.dropLast 0) = true) :
    ∃ x inner y, t = x :: (inner ++ [y]) ∧ o x = true ∧ c y = true ∧
      balanced o c inner 0 = true := by
  cases t with
  | nil => simp at h
  | cons x rest =>
    simp only [Bool.and_eq_true, Bool.not_eq_true', List.isEmpty_eq_false] at h
    obtain ⟨⟨⟨h1, h2⟩, h3⟩, h4⟩ := h
    rcases List.eq_nil_or_concat rest with h0 | ⟨inner, y, hy⟩
    · exact absurd h0 (by simpa using h2)
    · rw [List.concat_eq_append] at hy
      subst hy
      refine ⟨x, inner, y, rfl, h1, ?_, ?_⟩
      · simpa using h3
      · simpa using h4

theorem isCallSuffix_split {c : List Char} (h : isCallSuffix c = true) :
    ∃ o inner cl, c = o :: (inner ++ [cl]) ∧ (o = '(' ∨ o = '{') ∧ (cl = ')' ∨ cl = '}') ∧
      balanced isCallOpen isCallClose inner 0 = true := by
  obtain ⟨o, inner, cl, h1, h2, h3, h4⟩ := bracket_group_split isCallOpen isCallClose c h
  exact ⟨o, inner, cl, h1, (isCallOpen_iff o).1 h2, (isCallClose_iff cl).1 h3, h4⟩

theorem isTemplateSuffix_split {t : List Char} (h : isTemplateSuffix t = true) :
    ∃ inner, t = '<' :: (inner ++ ['>']) ∧ balanced isAngleOpen isAngleClose inner 0 = true := by
  obtain ⟨o, inner, cl, h1, h2, h3, h4⟩ := bracket_group_split isAngleOpen isAngleClose t h
  simp [isAngleOpen] at h2
  simp [isAngleClose] at h3
  subst h2 h3
  exact ⟨inner, h1, h4⟩

/-- The first loop cuts a call suffix `c` (or nothing when there is none) off a
text whose last character before it is an identifier character or an angle
bracket. -/
theorem loop1_call (pre a c post : List Char) (z : Char)
    (hlen : (a ++ [z] ++ c).length < SIZE_MOD)
    (hz : IsLexeme z = false ∨ z = '>' ∨ z = '<')
    (hc : c = [] ∨ isCallSuffix c = true) :
    NameofPretty_loop1 (slice_of pre (a ++ [z] ++ c) post) (a ++ [z] ++ c).length 0 0 =
      some (slice_of pre (a ++ [z]) (c ++ post)) := by
  rcases hc with hc | hc
  · subst hc
    simp only [List.append_nil] at hlen ⊢
    have hl : (a ++ [z]).length = a.length + 1 := by simp
    rw [hl, loop1_stop (index_at pre post _ a [] z _ (by simp) rfl) hz]
    exact congrArg some (remove_suffix_zero_slice_of pre (a ++ [z]) post hlen)
  · obtain ⟨o, inner, cl, rfl, ho, hcl, hbal⟩ := isCallSuffix_split hc
    have hl : (a ++ [z] ++ o :: (inner ++ [cl])).length = a.length + 1 + 1 + inner.length + 1 := by
      simp; omega
    have hd0 : depth isCallOpen isCallClose inner = 0 := by
      simpa using (balanced_depth _ _ inner 0 hbal).1
    rw [hl] at hlen
    rw [hl, loop1_close (index_at pre post _ (a ++ [z] ++ o :: inner) [] cl _ (by simp)
      (by simp; omega)) hcl, size_add_of_lt (by unfold SIZE_MOD; omega)]
    have hn := loop1_nested pre post inner (a ++ [z] ++ [o]) [cl] 1 1
      (by simp; omega) (by omega) (by
        intro k _ _
        have := balanced_drop _ _ inner hbal k
        omega)
    have e1 : a ++ [z] ++ [o] ++ inner ++ [cl] = a ++ [z] ++ o :: (inner ++ [cl]) := by simp
    have e2 : (a ++ [z] ++ [o]).length = a.length + 1 + 1 := by simp
    rw [e1, e2, hd0] at hn
    rw [hn]
    simp only [Nat.cast_one, sub_zero, Int.toNat_one]
    rw [loop1_open (index_at pre post _ (a ++ [z]) (inner ++ [cl]) o _ (by simp) (by simp)) ho,
      size_sub_of_le (Nat.le_refl 1) (by unfold SIZE_MOD; omega), Nat.sub_self,
      loop1_stop (index_at pre post _ a (o :: (inner ++ [cl])) z _ (by simp) rfl) hz]
    have := remove_suffix_slice_of pre (a ++ [z]) (o :: (inner ++ [cl])) post (by simp; omega)
    rw [← this]
    congr 2
    simp; omega

/-- The second loop measures a template suffix `t` (or 0 when there is none)
behind a text whose last character is no angle bracket. -/
theorem loop2_template (pre a t post : List Char) (z : Char)
    (hlen : (a ++ [z] ++ t).length < SIZE_MOD)
    (hz1 : z ≠ '>') (hz2 : z ≠ '<')
    (ht : t = [] ∨ isTemplateSuffix t = true) :
    NameofPretty_loop2 (slice_of pre (a ++ [z] ++ t) post) (a ++ [z] ++ t).length 0 0 =
      some t.length := by
  rcases ht with ht | ht
  · subst ht
    simp only [List.append_nil] at hlen ⊢
    have hl : (a ++ [z]).length = a.length + 1 := by simp
    rw [hl, loop2_stop (index_at pre post _ a [] z _ (by simp) rfl) hz1 hz2]
    rfl
  · obtain ⟨inner, rfl, hbal⟩ := isTemplateSuffix_split ht
    have hl : (a ++ [z] ++ '<' :: (inner ++ ['>'])).length =
        a.length + 1 + 1 + inner.length + 1 := by
      simp; omega
    have hd0 : depth isAngleOpen isAngleClose inner = 0 := by
      simpa using (balanced_depth _ _ inner 0 hbal).1
    rw [hl] at hlen
    rw [hl, loop2_close (index_at pre post _ (a ++ [z] ++ '<' :: inner) [] '>' _ (by simp)
      (by simp; omega)), size_add_of_lt (by unfold SIZE_MOD; omega)]
    have hn := loop2_nested pre post inner (a ++ [z] ++ ['<']) ['>'] 1 1
      (by simp; omega) (by omega) (by
        intro k _ _
        have := balanced_drop _ _ inner hbal k
        omega)
    have e1 : a ++ [z] ++ ['<'] ++ inner ++ ['>'] = a ++ [z] ++ '<' :: (inner ++ ['>']) := by
      simp
    have e2 : (a ++ [z] ++ ['<']).length = a.length + 1 + 1 := by simp
    rw [e1, e2, hd0] at hn
    rw [hn]
    simp only [Nat.cast_one, sub_zero, Int.toNat_one]
    rw [loop2_open (index_at pre post _ (a ++ [z]) (inner ++ ['>']) '<' _ (by simp) (by simp)),
      size_sub_of_le (Nat.le_refl 1) (by unfold SIZE_MOD; omega), Nat.sub_self,
      loop2_stop (index_at pre post _ a ('<' :: (inner ++ ['>'])) z _ (by simp) rfl) hz1 hz2]
    congr 1
    simp; omega

theorem isIdentifier_split {x : List Char} (h : isIdentifier x = true) :
    (∀ c ∈ x, IsLexeme c = false) ∧ ∃ x1 z, x = x1 ++ [z] ∧ IsLexeme z = false := by
  simp only [isIdentifier, Bool.and_eq_true, Bool.not_eq_true', List.isEmpty_eq_false,
    List.all_eq_true] at h
  have hall : ∀ c ∈ x, IsLexeme c = false := by
    intro c hc
    rw [isLexeme_eq_not_isIdentChar, h.2 c hc]
    rfl
  refine ⟨hall, ?_⟩
  rcases List.eq_nil_or_concat x with h0 | ⟨x1, z, hz⟩
  · exact absurd h0 (by simpa using h.1)
  · rw [List.concat_eq_append] at hz
    exact ⟨x1, z, hz, hall z (by simp [hz])⟩

theorem endsOutsideIdent_last {q : List Char} (h : endsOutsideIdent q = true) :
    ∀ c, q.getLast? = some c → IsLexeme c = true := by
  intro c hc
  simp only [endsOutsideIdent, hc, Bool.not_eq_true'] at h
  rw [isLexeme_eq_not_isIdentChar, h]
  rfl

theorem template_last {t : List Char} (ht : isTemplateSuffix t = true) :
    ∃ t1, t = t1 ++ ['>'] := by
  obtain ⟨inner, rfl, _⟩ := isTemplateSuffix_split ht
  exact ⟨'<' :: inner, by simp⟩

/-- The shape every positive claim about `NameofPretty` instantiates: on
`q ++ x ++ t ++ c` with `x` an identifier, `t` a template suffix or empty and
`c` a call suffix or empty, the result is the slice at `x` (with `t` when
`with_suffix`) of the same array. -/
theorem NameofPretty_shape (pre q x t c post : List Char) (ws : Bool)
    (hlen : (q ++ x ++ t ++ c).length < SIZE_MOD)
    (hq : endsOutsideIdent q = true) (hx : isIdentifier x = true)
    (ht : t = [] ∨ isTemplateSuffix t = true) (hc : c = [] ∨ isCallSuffix c = true) :
    NameofPretty (slice_of pre (q ++ x ++ t ++ c) post) ws =
      some (slice_of (pre ++ q) (if ws then x ++ t else x)
        (if ws then c ++ post else t ++ (c ++ post))) := by
  obtain ⟨hxall, x1, z, hxz, hz⟩ := isIdentifier_split hx
  have hzb := ident_not_bracket hz
  have hl3 : (q ++ x ++ t).length < SIZE_MOD := by
    simp only [List.length_append] at hlen ⊢; omega
  -- the first loop cuts `c`
  have h1 : NameofPretty_loop1 (slice_of pre (q ++ x ++ t ++ c) post)
      (slice_of pre (q ++ x ++ t ++ c) post).size 0 0 =
      some (slice_of pre (q ++ x ++ t) (c ++ post)) := by
    have hsz : (slice_of pre (q ++ x ++ t ++ c) post).size = (q ++ x ++ t ++ c).length := rfl
    rw [hsz]
    rcases ht with ht0 | ht1
    · subst ht0
      have e : q ++ x ++ [] = q ++ x1 ++ [z] := by simp [hxz]
      rw [e] at hlen ⊢
      exact loop1_call pre (q ++ x1) c post z hlen (Or.inl hz) hc
    · obtain ⟨t1, ht1⟩ := template_last ht1
      have e : q ++ x ++ t = q ++ x ++ t1 ++ ['>'] := by simp [ht1]
      rw [e] at hlen ⊢
      exact loop1_call pre (q ++ x ++ t1) c post '>' hlen (Or.inr (Or.inl rfl)) hc
  -- the second loop measures `t`
  have h2 : NameofPretty_loop2 (slice_of pre (q ++ x ++ t) (c ++ post))
      (slice_of pre (q ++ x ++ t) (c ++ post)).size 0 0 = some t.length := by
    have hsz : (slice_of pre (q ++ x ++ t) (c ++ post)).size = (q ++ x ++ t).length := rfl
    rw [hsz]
    have e : q ++ x ++ t = q ++ x1 ++ [z] ++ t := by simp [hxz]
    rw [e] at hl3 ⊢
    exact loop2_template pre (q ++ x1) t (c ++ post) z hl3 hzb.2.2.1 hzb.2.2.2.1 ht
  -- the third loop finds the start of `x`
  have hsz : (slice_of pre (q ++ x ++ t) (c ++ post)).size = (q ++ x ++ t).length := rfl
  have h3 : size_sub (q ++ x ++ t).length t.length = q.length + x.length := by
    rw [size_sub_of_le (by simp only [List.length_append]; omega) hl3]
    simp only [List.length_append]
    omega
  unfold NameofPretty
  rw [h1]
  simp only
  rw [h2]
  simp only
  rw [hsz, h3, loop3_result pre q x t (c ++ post) ws hl3 hxall (endsOutsideIdent_last hq)]

/-! ## `NameofPretty` on an arbitrary text -/

/-- The first loop returns on every text, with a slice over an initial part of
the text. -/
theorem loop1_total (pre text post : List Char) (hlen : text.length < SIZE_MOD) :
    ∀ (i h s : Nat), i + s = text.length →
      ∃ m, m ≤ text.length ∧
        NameofPretty_loop1 (slice_of pre text post) i h s =
          some (slice_of pre (text.take m) (text.drop m ++ post)) := by
  intro i
  induction i with
  | zero =>
    intro h s _
    exact ⟨text.length, Nat.le_refl _, by simp [NameofPretty_loop1]⟩
  | succ i ih =>
    intro h s hs
    have hi : i < text.length := by omega
    have hidx : (slice_of pre text post).index i = some text[i] := by
      rw [index_slice_of pre text post hi, List.getElem?_eq_getElem hi]
    unfold NameofPretty_loop1
    rw [hidx]
    simp only
    split_ifs
    · exact ih _ _ (by omega)
    · exact ih _ _ (by omega)
    · exact ih _ _ (by omega)
    · refine ⟨i + 1, by omega, ?_⟩
      have := remove_suffix_slice_of pre (text.take (i + 1)) (text.drop (i + 1)) post
        (by simpa using hlen)
      rw [List.take_append_drop] at this
      have hs2 : (text.drop (i + 1)).length = s := by simp; omega
      rw [hs2] at this
      rw [this]
    · exact ih _ _ (by omega)

/-- The second loop returns on every text, with a count that does not exceed
the number of characters it walked over. -/
theorem loop2_total (pre text post : List Char) :
    ∀ (i h s : Nat), i ≤ text.length →
      ∃ s1, s1 ≤ s + i ∧ NameofPretty_loop2 (slice_of pre text post) i h s = some s1 := by
  intro i
  induction i with
  | zero =>
    intro h s _
    exact ⟨s, by omega, by simp [NameofPretty_loop2]⟩
  | succ i ih =>
    intro h s hs
    have hi : i < text.length := by omega
    have hidx : (slice_of pre text post).index i = some text[i] := by
      rw [index_slice_of pre text post hi, List.getElem?_eq_getElem hi]
    unfold NameofPretty_loop2
    rw [hidx]
    simp only
    split_ifs
    · obtain ⟨s1, h1, h2⟩ := ih (size_add h 1) (s + 1) (by omega)
      exact ⟨s1, by omega, h2⟩
    · obtain ⟨s1, h1, h2⟩ := ih (size_sub h 1) (s + 1) (by omega)
      exact ⟨s1, by omega, h2⟩
    · exact ⟨s, by omega, rfl⟩
    · obtain ⟨s1, h1, h2⟩ := ih h (s + 1) (by omega)
      exact ⟨s1, by omega, h2⟩

/-- Every text splits into a part that is empty or ends outside identifiers
and a final run of identifier characters. -/
theorem ident_run_split (body : List Char) :
    ∃ q x, body = q ++ x ∧ (∀ c ∈ x, IsLexeme c = false) ∧
      (∀ c, q.getLast? = some c → IsLexeme c = true) := by
  induction body using List.reverseRecOn with
  | nil => exact ⟨[], [], rfl, by simp, by simp⟩
  | append_singleton b c ih =>
    by_cases hc : IsLexeme c = true
    · exact ⟨b ++ [c], [], by simp, by simp, by simp [hc]⟩
    · obtain ⟨q, x, hb, hx, hq⟩ := ih
      refine ⟨q, x ++ [c], by simp [hb], ?_, hq⟩
      intro d hd
      rcases List.mem_append.1 hd with hd | hd
      · exact hx d hd
      · simp at hd; subst hd; simpa using hc

/-- Decomposition of an arbitrary text by `NameofPretty`: the text is
`q ++ x ++ t ++ c`, where `c` is what the first loop cuts, `t` what the second
loop counts, `x` the run of identifier characters before `t`, and the result
is the slice at `x` (with `t` when `with_suffix`). -/
theorem NameofPretty_general (pre text post : List Char) (hlen : text.length < SIZE_MOD) :
    ∃ q x t c, text = q ++ x ++ t ++ c ∧ (∀ ch ∈ x, IsLexeme ch = false) ∧
      (∀ ch, q.getLast? = some ch → IsLexeme ch = true) ∧
      ∀ ws, NameofPretty (slice_of pre text post) ws =
        some (slice_of (pre ++ q) (if ws then x ++ t else x)
          (if ws then c ++ post else t ++ (c ++ post))) := by
  obtain ⟨m, hm, h1⟩ := loop1_total pre text post hlen text.length 0 0 rfl
  have hl1 : (text.take m).length = m := by simp; omega
  obtain ⟨s, hs, h2⟩ := loop2_total pre (text.take m) (text.drop m ++ post) m 0 0 (by omega)
  obtain ⟨q, x, hb, hx, hq⟩ := ident_run_split ((text.take m).take (m - s))
  have hsplit : text.take m = q ++ x ++ (text.take m).drop (m - s) := by
    rw [← hb, List.take_append_drop]
  have hlt : ((text.take m).drop (m - s)).length = s := by simp; omega
  have hl3 : (q ++ x ++ (text.take m).drop (m - s)).length < SIZE_MOD := by
    rw [← hsplit, hl1]; omega
  have hqx : q.length + x.length = m - s := by
    have := congrArg List.length hb
    simp at this
    omega
  refine ⟨q, x, (text.take m).drop (m - s), text.drop m, ?_, hx, hq, fun ws => ?_⟩
  · rw [← hsplit, List.take_append_drop]
  · have hsz0 : (slice_of pre text post).size = text.length := rfl
    have hsz1 : (slice_of pre (text.take m) (text.drop m ++ post)).size = m := by
      simp [slice_of, cstring.size]; omega
    unfold NameofPretty
    rw [hsz0, h1]
    simp only
    rw [hsz1, h2]
    simp only
    rw [size_sub_of_le (by omega) (by omega)]
    have := loop3_result pre q x ((text.take m).drop (m - s)) (text.drop m ++ post) ws hl3 hx hq
    rw [← hsplit, hlt, hqx] at this
    exact this

/-! ## The public entry points -/

theorem Nameof_eq_NameofPretty (pre text post : List Char) (ws : Bool)
    (hlen : text.length < SIZE_MOD) :
    Nameof { mem := pre ++ text ++ post, pos := pre.length } text.length ws =
      NameofPretty (slice_of pre text post) ws := by
  unfold Nameof
  rw [ctor_zero_zero hlen]
  rfl

theorem endsOutsideIdent_qualifier (names : List (List Char)) :
    endsOutsideIdent (qualifier names) = true := by
  rcases List.eq_nil_or_concat names with h0 | ⟨ns, n, hn⟩
  · subst h0; rfl
  · rw [List.concat_eq_append] at hn
    subst hn
    have e : qualifier (ns ++ [n]) = (qualifier ns ++ n ++ [':']) ++ [':'] := by
      simp [qualifier]
    have hl : ((qualifier ns ++ n ++ [':']) ++ [':']).getLast? = some ':' := by
      rw [List.getLast?_concat]
    rw [e]
    simp only [endsOutsideIdent, hl]
    decide

theorem isIdentChar_props {ch : Char} (h : IsLexeme ch = false) :
    isIdentChar ch = true ∧ ch ≠ ':' ∧ IsBracket ch = false := by
  have hb := ident_not_bracket h
  refine ⟨?_, hb.2.2.2.2, ?_⟩
  · rw [isLexeme_eq_not_isIdentChar] at h
    simpa using h
  · have h1 := hb.1
    have h2 := hb.2.1
    simp only [not_or] at h1 h2
    simp [IsBracket, h1.1, h1.2, h2.1, h2.2, hb.2.2.1, hb.2.2.2.1]

/-! ## Equality of slices -/

theorem StrEquals_loop_from_true (lhs rhs : CharPtr) : ∀ (n i : Nat),
    StrEquals_loop_from lhs rhs i n = some true ↔
      ∀ k, k < n → ∃ c, lhs.read (i + k) = some c ∧ rhs.read (i + k) = some c := by
  intro n
  induction n with
  | zero => intro i; simp [StrEquals_loop_from]
  | succ n ih =>
    intro i
    unfold StrEquals_loop_from
    constructor
    · intro h k hk
      cases hl : lhs.read i with
      | none => simp [hl] at h
      | some a =>
        cases hr : rhs.read i with
        | none => simp [hl, hr] at h
        | some b =>
          simp only [hl, hr] at h
          by_cases hab : a = b
          · simp only [hab, ne_eq, not_true_eq_false, if_false] at h
            cases k with
            | zero => exact ⟨a, by simpa using hl, by simpa [hab] using hr⟩
            | succ k =>
              have := (ih (i + 1)).1 h k (by omega)
              rwa [show i + 1 + k = i + (k + 1) by omega] at this
          · simp [hab] at h
    · intro h
      obtain ⟨c, h1, h2⟩ := h 0 (by omega)
      simp only [Nat.add_zero] at h1 h2
      simp only [h1, h2, ne_eq, not_true_eq_false, if_false]
      refine (ih (i + 1)).2 fun k hk => ?_
      have := h (k + 1) (by omega)
      rwa [show i + (k + 1) = i + 1 + k by omega] at this

/-- On a build with `NAMEOF_HAS_CONSTEXPR14`, `a == b` is true exactly when the
lengths agree and the slices hold the same character at every index below the
length; `a != b` is its negation on every build. -/
theorem eq_cxx14_iff (a b : cstring) :
    (a.eq true b = some true ↔
      a.size = b.size ∧ ∀ i, i < a.size → ∃ c, a.index i = some c ∧ b.index i = some c) ∧
    ∀ cfg, a.ne cfg b = (a.eq cfg b).map fun r => !r := by
  refine ⟨?_, fun _ => rfl⟩
  unfold cstring.eq StrEquals StrEquals_loop cstring.size cstring.index
  by_cases h : a.size_ = b.size_
  · simp only [h, if_true, true_and]
    rw [StrEquals_loop_from_true]
    simp
  · simp [h]

/-! ## The type-name cleanup -/

theorem back_slice_of (pre a post : List Char) (c : Char)
    (hlen : (a ++ [c]).length < SIZE_MOD) :
    (slice_of pre (a ++ [c]) post).back = some c := by
  have h1 : (a ++ [c]).length = a.length + 1 := by simp
  unfold cstring.back
  have : (slice_of pre (a ++ [c]) post).size_ = a.length + 1 := h1
  rw [this, size_sub_of_le (by omega) (by omega), Nat.add_sub_cancel]
  exact index_slice_of_mid pre a [] post c

/-- With more fuel than trailing spaces, `RemoveSpaceSuffix` removes all the
trailing spaces of a text that has a character other than a space. -/
theorem RemoveSpaceSuffix_spec (pre body : List Char) (z : Char) (hz : z ≠ ' ') :
    ∀ (k fuel : Nat) (post : List Char), k < fuel →
      (body ++ [z] ++ List.replicate k ' ').length < SIZE_MOD →
      msvc.RemoveSpaceSuffix fuel (slice_of pre (body ++ [z] ++ List.replicate k ' ') post) =
        some (slice_of pre (body ++ [z]) (List.replicate k ' ' ++ post)) := by
  intro k
  induction k with
  | zero =>
    intro fuel post hf hlen
    obtain ⟨f, rfl⟩ : ∃ f, fuel = f + 1 := ⟨fuel - 1, by omega⟩
    simp only [List.replicate_zero, List.append_nil, List.nil_append] at hlen ⊢
    unfold msvc.RemoveSpaceSuffix
    rw [back_slice_of pre body post z hlen]
    simp [hz]
  | succ k ih =>
    intro fuel post hf hlen
    obtain ⟨f, rfl⟩ : ∃ f, fuel = f + 1 := ⟨fuel - 1, by omega⟩
    have e : body ++ [z] ++ List.replicate (k + 1) ' ' =
        (body ++ [z] ++ List.replicate k ' ') ++ [' '] := by
      rw [List.replicate_succ', List.append_assoc (body ++ [z])]
    rw [e] at hlen ⊢
    unfold msvc.RemoveSpaceSuffix
    rw [back_slice_of pre _ post ' ' hlen]
    simp only [if_true]
    have hrs := remove_suffix_slice_of pre (body ++ [z] ++ List.replicate k ' ') [' '] post hlen
    simp only [List.length_singleton] at hrs
    rw [hrs, ih f ([' '] ++ post) (by omega) (by simp at hlen ⊢; omega)]
    congr 2
    rw [List.replicate_succ', List.append_assoc]

theorem chars_at_slice_of (pre text post : List Char) : ∀ (kw : List Char) (k : Nat),
    k + kw.length ≤ text.length →
      msvc.chars_at (slice_of pre text post) k kw = some (kw.isPrefixOf (text.drop k)) := by
  intro kw
  induction kw with
  | nil => intro k _; simp [msvc.chars_at]
  | cons c cs ih =>
    intro k hk
    have hk1 : k < text.length := by simp at hk; omega
    unfold msvc.chars_at
    rw [index_slice_of pre text post hk1, List.getElem?_eq_getElem hk1]
    simp only
    rw [List.drop_eq_getElem_cons hk1, List.isPrefixOf]
    by_cases h : text[k] = c
    · simp only [h, if_true, beq_self_eq_true, Bool.true_and]
      exact ih (k + 1) (by simp at hk; omega)
    · have h2 : (c == text[k]) = false := by simpa using fun e => h e.symm
      simp [h, h2]

theorem remove_keyword_slice_of (pre text post : List Char) (n : Nat) (kw : List Char)
    (hn : kw.length = n) (hlen : text.length < SIZE_MOD) :
    (if (slice_of pre text post).size > n then
      match msvc.chars_at (slice_of pre text post) 0 kw with
      | none => none
      | some true => some ( cstring.remove_prefix (slice_of pre text post) n)
      | some false => some (slice_of pre text post)
    else some (slice_of pre text post)) =
      some (slice_of (pre ++ text.take (text.length - (strip_keyword kw text).length))
        (strip_keyword kw text) post) := by
  have hsz : (slice_of pre text post).size = text.length := rfl
  rw [hsz]
  unfold strip_keyword
  rw [hn]
  by_cases h1 : text.length > n
  · rw [if_pos h1, chars_at_slice_of pre text post kw 0 (by omega)]
    simp only [List.drop_zero]
    cases hp : kw.isPrefixOf text
    · simp
    · simp only [h1, and_self, if_true, List.length_drop]
      have hrp := remove_prefix_slice_of pre (text.take n) (text.drop n) post
        (by simpa using hlen)
      rw [List.take_append_drop, List.length_take, Nat.min_eq_left (by omega)] at hrp
      rw [hrp, show text.length - (text.length - n) = n by omega]
  · have h2 : ¬ (n < text.length) := by omega
    simp [h1, h2]

theorem RemoveEnumPrefix_spec (pre text post : List Char) (hlen : text.length < SIZE_MOD) :
    msvc.RemoveEnumPrefix (slice_of pre text post) =
      some (slice_of (pre ++ text.take (text.length - (strip_keyword kw_enum text).length))
        (strip_keyword kw_enum text) post) :=
  remove_keyword_slice_of pre text post 5 kw_enum rfl hlen

theorem RemoveStructPrefix_spec (pre text post : List Char) (hlen : text.length < SIZE_MOD) :
    msvc.RemoveStructPrefix (slice_of pre text post) =
      some (slice_of (pre ++ text.take (text.length - (strip_keyword kw_struct text).length))
        (strip_keyword kw_struct text) post) :=
  remove_keyword_slice_of pre text post 7 kw_struct rfl hlen

theorem RemoveClassPrefix_spec (pre text post : List Char) (hlen : text.length < SIZE_MOD) :
    msvc.RemoveClassPrefix (slice_of pre text post) =
      some (slice_of (pre ++ text.take (text.length - (strip_keyword kw_class text).length))
        (strip_keyword kw_class text) post) :=
  remove_keyword_slice_of pre text post 6 kw_class rfl hlen

theorem strip_keyword_length_le (kw t : List Char) : (strip_keyword kw t).length ≤ t.length := by
  unfold strip_keyword
  split_ifs <;> simp

theorem strip_keyword_no_match (kw t : List Char) (h : kw.isPrefixOf t = false) :
    strip_keyword kw t = t := by
  simp [strip_keyword, h]

theorem strip_keyword_append (kw rest : List Char) (h : rest ≠ []) :
    strip_keyword kw (kw ++ rest) = rest := by
  have hr : 0 < rest.length := List.length_pos.2 h
  simp [strip_keyword, hr]

/-! ## The claims -/

/-- C1: for every qualifier made of `name::` segments (possibly none), every
identifier `x` and every call suffix `c` (one group opened by `(` or `{`,
closed by `)` or `}`, round and curly brackets balanced inside),
`NameofPretty(q ++ x ++ c, false)`, and so `Nameof` with `with_suffix = false`,
returns the slice whose characters are exactly `x`. -/
theorem NameofPretty_call_suffix (pre post : List Char) (names : List (List Char))
    (x c : List Char)
    (hlen : (qualifier names ++ x ++ c).length < SIZE_MOD)
    (hx : isIdentifier x = true) (hc : isCallSuffix c = true) :
    NameofPretty (slice_of pre (qualifier names ++ x ++ c) post) false =
        some (slice_of (pre ++ qualifier names) x (c ++ post)) ∧
      Nameof { mem := pre ++ (qualifier names ++ x ++ c) ++ post, pos := pre.length }
          (qualifier names ++ x ++ c).length false =
        some (slice_of (pre ++ qualifier names) x (c ++ post)) ∧
      (slice_of (pre ++ qualifier names) x (c ++ post)).std_string = some x := by
  have h := NameofPretty_shape pre (qualifier names) x [] c post false
    (by simpa using hlen) (endsOutsideIdent_qualifier names) hx (Or.inl rfl) (Or.inr hc)
  simp only [List.append_nil, Bool.false_eq_true, if_false, List.nil_append] at h
  exact ⟨h, by rw [Nameof_eq_NameofPretty _ _ _ _ hlen, h], std_string_slice_of _ _ _⟩

/-- C1, witness: `"ns::Foo::bar(1, 2)"` yields `"bar"`. -/
theorem NameofPretty_call_suffix_witness :
    NameofPretty (slice_of [] "ns::Foo::bar(1, 2)".toList ['\x00']) false =
        some (slice_of "ns::Foo::".toList "bar".toList ("(1, 2)".toList ++ ['\x00'])) ∧
      Nameof { mem := "ns::Foo::bar(1, 2)".toList ++ ['\x00'], pos := 0 } 18 false =
        some (slice_of "ns::Foo::".toList "bar".toList ("(1, 2)".toList ++ ['\x00'])) ∧
      (slice_of "ns::Foo::".toList "bar".toList ("(1, 2)".toList ++ ['\x00'])).std_string =
        some "bar".toList :=
  NameofPretty_call_suffix [] ['\x00'] ["ns".toList, "Foo".toList] "bar".toList
    "(1, 2)".toList (by decide) (by decide) (by decide)

/-- C2: for every prefix `q` that is empty or ends in a non-identifier
character, every identifier `x` and every template suffix `t` (`<`, text with
balanced angle brackets, `>`), `NameofPretty(q ++ x ++ t, true)` returns the
slice `x ++ t` and `NameofPretty(q ++ x ++ t, false)` the slice `x`. -/
theorem NameofPretty_template_suffix (pre post q x t : List Char)
    (hlen : (q ++ x ++ t).length < SIZE_MOD)
    (hq : endsOutsideIdent q = true) (hx : isIdentifier x = true)
    (ht : isTemplateSuffix t = true) :
    (NameofPretty (slice_of pre (q ++ x ++ t) post) true =
        some (slice_of (pre ++ q) (x ++ t) post) ∧
      (slice_of (pre ++ q) (x ++ t) post).std_string = some (x ++ t)) ∧
    (NameofPretty (slice_of pre (q ++ x ++ t) post) false =
        some (slice_of (pre ++ q) x (t ++ post)) ∧
      (slice_of (pre ++ q) x (t ++ post)).std_string = some x) := by
  have h (ws : Bool) := NameofPretty_shape pre q x t [] post ws
    (by simpa using hlen) hq hx (Or.inr ht) (Or.inl rfl)
  have h1 := h true
  have h2 := h false
  simp only [List.append_nil, if_true, List.nil_append] at h1
  simp only [List.append_nil, Bool.false_eq_true, if_false, List.nil_append] at h2
  exact ⟨⟨h1, std_string_slice_of _ _ _⟩, ⟨h2, std_string_slice_of _ _ _⟩⟩

/-- C2, witness: `"vec.at(i).member<T>"` yields `"member<T>"` and `"member"`. -/
theorem NameofPretty_template_suffix_witness :
    (NameofPretty (slice_of [] "vec.at(i).member<T>".toList ['\x00']) true =
        some (slice_of "vec.at(i).".toList "member<T>".toList ['\x00']) ∧
      (slice_of "vec.at(i).".toList "member<T>".toList ['\x00']).std_string =
        some "member<T>".toList) ∧
    (NameofPretty (slice_of [] "vec.at(i).member<T>".toList ['\x00']) false =
        some (slice_of "vec.at(i).".toList "member".toList ("<T>".toList ++ ['\x00'])) ∧
      (slice_of "vec.at(i).".toList "member".toList ("<T>".toList ++ ['\x00'])).std_string =
        some "member".toList) :=
  NameofPretty_template_suffix [] ['\x00'] "vec.at(i).".toList "member".toList "<T>".toList
    (by decide) (by decide) (by decide) (by decide)

/-- C3: for every non-empty run `x` of letters, digits and underscores and
every prefix `q` that is empty or ends in a character that is none of these,
`NameofPretty(q ++ x, with_suffix)` returns the slice `x`, for either value of
`with_suffix`. -/
theorem NameofPretty_identifier (pre post q x : List Char) (with_suffix : Bool)
    (hlen : (q ++ x).length < SIZE_MOD)
    (hq : endsOutsideIdent q = true) (hx : isIdentifier x = true) :
    NameofPretty (slice_of pre (q ++ x) post) with_suffix = some (slice_of (pre ++ q) x post) ∧
      (slice_of (pre ++ q) x post).std_string = some x := by
  have h := NameofPretty_shape pre q x [] [] post with_suffix
    (by simpa using hlen) hq hx (Or.inl rfl) (Or.inl rfl)
  simp only [List.append_nil, List.nil_append, ite_self] at h
  exact ⟨h, std_string_slice_of _ _ _⟩

/-- C3, witness: the bare identifier `"foo"` is returned unchanged. -/
theorem NameofPretty_identifier_witness :
    NameofPretty (slice_of [] "foo".toList ['\x00']) false =
        some (slice_of [] "foo".toList ['\x00']) ∧
      (slice_of [] "foo".toList ['\x00']).std_string = some "foo".toList :=
  NameofPretty_identifier [] ['\x00'] [] "foo".toList false (by decide) (by decide)
    (by decide)

/-- C4: for every text, balanced or not, `NameofPretty(text, false)` returns,
and the characters of its result are letters, digits and underscores only: no
`:` of a qualifier and none of the six brackets. -/
theorem NameofPretty_bare (pre text post : List Char) (hlen : text.length < SIZE_MOD) :
    ∃ r w, NameofPretty (slice_of pre text post) false = some r ∧ r.std_string = some w ∧
      ∀ ch ∈ w, isIdentChar ch = true ∧ ch ≠ ':' ∧ IsBracket ch = false := by
  obtain ⟨q, x, t, c, _, hx, _, h⟩ := NameofPretty_general pre text post hlen
  have h1 := h false
  simp only [Bool.false_eq_true, if_false] at h1
  exact ⟨_, x, h1, std_string_slice_of _ _ _, fun ch hch => isIdentChar_props (hx ch hch)⟩

/-- C4, witness: the unbalanced text `"a::b)(<c"`. -/
theorem NameofPretty_bare_witness :
    ∃ r w, NameofPretty (slice_of [] "a::b)(<c".toList ['\x00']) false = some r ∧
      r.std_string = some w ∧
      ∀ ch ∈ w, isIdentChar ch = true ∧ ch ≠ ':' ∧ IsBracket ch = false :=
  NameofPretty_bare [] "a::b)(<c".toList ['\x00'] (by decide)

/-- C5: for every pointer `name` and every length `size`, `NameofRaw(name, size)`
is the slice at `name` of length `size`: it reads the characters `name` reads,
and its copy is the first `size` characters at `name`, nothing trimmed. -/
theorem NameofRaw_verbatim (name : CharPtr) (size : Nat) (hsize : size < SIZE_MOD) :
    (NameofRaw name size).size = size ∧ (NameofRaw name size).str_ = name ∧
      (∀ i, (NameofRaw name size).index i = name.read i) ∧
      (NameofRaw name size).std_string =
        if name.pos + size ≤ name.mem.length then some ((name.mem.drop name.pos).take size)
        else none := by
  have h : NameofRaw name size = { str_ := name, size_ := size } := by
    unfold NameofRaw
    exact ctor_zero_zero hsize
  rw [h]
  exact ⟨rfl, rfl, fun _ => rfl, rfl⟩

/-- C5, witness: `"ns::Foo::bar(1, 2)"` is returned verbatim. -/
theorem NameofRaw_verbatim_witness :
    (NameofRaw { mem := "ns::Foo::bar(1, 2)".toList ++ ['\x00'], pos := 0 } 18).std_string =
      some "ns::Foo::bar(1, 2)".toList :=
  (NameofRaw_verbatim { mem := "ns::Foo::bar(1, 2)".toList ++ ['\x00'], pos := 0 } 18
    (by decide)).2.2.2

/-- C6: for a signature buffer of `size` characters at `str` and offsets with
`prefix + suffix < size`, the Clang/GCC `NameofTypePretty` returns the
characters `str[prefix .. size - suffix)`, without their last one when
`str[size - suffix - 1]` is a space and whole otherwise. -/
theorem NameofTypePretty_clang_gcc (str : CharPtr) (size prefix_ suffix_ : Nat)
    (hmem : str.pos + size ≤ str.mem.length) (hsize : size < SIZE_MOD)
    (hps : prefix_ + suffix_ < size) :
    ∃ ch r, str.read (size - suffix_ - 1) = some ch ∧
      clang_gcc.NameofTypePretty str size prefix_ suffix_ = some r ∧
      r.std_string = some
        (if ch = ' ' then
          ((str.mem.drop (str.pos + prefix_)).take (size - prefix_ - suffix_)).dropLast
        else (str.mem.drop (str.pos + prefix_)).take (size - prefix_ - suffix_)) := by
  have hidx : str.pos + (size - suffix_ - 1) < str.mem.length := by omega
  have hrd : str.read (size - suffix_ - 1) = some (str.mem[str.pos + (size - suffix_ - 1)]) := by
    unfold CharPtr.read
    exact List.getElem?_eq_getElem hidx
  have hi : size_sub (size_sub size suffix_) 1 = size - suffix_ - 1 := by
    rw [size_sub_of_le (by omega) hsize, size_sub_of_le (by omega) (by omega)]
  refine ⟨str.mem[str.pos + (size - suffix_ - 1)],
    cstring.ctor str size prefix_
      (size_add suffix_ (if str.mem[str.pos + (size - suffix_ - 1)] = ' ' then 1 else 0)),
    hrd, ?_, ?_⟩
  · unfold clang_gcc.NameofTypePretty
    rw [hi, hrd]
  · set ch := str.mem[str.pos + (size - suffix_ - 1)] with hch
    have hdl : ((str.mem.drop (str.pos + prefix_)).take (size - prefix_ - suffix_)).dropLast =
        (str.mem.drop (str.pos + prefix_)).take (size - prefix_ - suffix_ - 1) := by
      rw [List.dropLast_eq_take, List.take_take, List.length_take, List.length_drop]
      refine congrArg (fun n => List.take n (List.drop (str.pos + prefix_) str.mem)) ?_
      omega
    by_cases hsp : ch = ' '
    · simp only [hsp, if_true]
      rw [hdl]
      have hs : size_sub (size_sub size prefix_) (size_add suffix_ 1) =
          size - prefix_ - suffix_ - 1 := by
        rw [size_add_of_lt (by omega), size_sub_of_le (by omega) hsize,
          size_sub_of_le (by omega) (by omega)]
        omega
      simp only [cstring.std_string, cstring.ctor, CharPtr.add, hs]
      rw [if_pos (by omega)]
    · simp only [hsp, if_false]
      have hs : size_sub (size_sub size prefix_) (size_add suffix_ 0) =
          size - prefix_ - suffix_ := by
        rw [size_add_of_lt (by omega), size_sub_of_le (by omega) hsize,
          size_sub_of_le (by omega) (by omega)]
        omega
      simp only [cstring.std_string, cstring.ctor, CharPtr.add, hs]
      rw [if_pos (by omega)]

/-- C6, witness: in `"f() [T = id<int >]"` with prefix 12 and suffix 2 the
embedded text is `"int "`, and the result is `"int"`. -/
theorem NameofTypePretty_clang_gcc_witness :
    ∃ ch r, CharPtr.read { mem := "f() [T = id<int >]".toList ++ ['\x00'], pos := 0 }
        (18 - 2 - 1) = some ch ∧
      clang_gcc.NameofTypePretty { mem := "f() [T = id<int >]".toList ++ ['\x00'], pos := 0 }
        18 12 2 = some r ∧
      r.std_string = some "int".toList := by
  obtain ⟨ch, r, h1, h2, h3⟩ := NameofTypePretty_clang_gcc
    { mem := "f() [T = id<int >]".toList ++ ['\x00'], pos := 0 } 18 12 2
    (by decide) (by decide) (by decide)
  refine ⟨ch, r, h1, h2, ?_⟩
  have hch : ch = ' ' := by
    have : CharPtr.read { mem := "f() [T = id<int >]".toList ++ ['\x00'], pos := 0 }
        (18 - 2 - 1) = some ' ' := by decide
    rw [this] at h1
    exact (Option.some.inj h1).symm
  rw [h3, hch]
  decide

/-- C7, counterexample: the text `"enum class X"` begins with the token
`enum ` followed by further characters, and the MSVC cleanup returns `"X"`,
not the text without that one token, `"class X"`. -/
theorem NameofTypePretty_msvc_two_keywords :
    (msvc.NameofTypePretty 1 (slice_of [] "enum class X".toList [])).bind cstring.std_string =
        some "X".toList ∧
      (msvc.NameofTypePretty 1 (slice_of [] "enum class X".toList [])).bind cstring.std_string ≠
        some "class X".toList := by
  decide

/-- C7, amended: for a text with a character other than a space, the MSVC
cleanup returns what is left of the text without its trailing spaces after
removing, in this order and each at most once, a leading `enum `, a leading
`struct ` and a leading `class ` that is followed by a further character.  So
a text that begins with one keyword token, goes on after it and does not begin
with a keyword token again loses exactly that token, and a text that begins
with none of the three keeps its beginning. -/
theorem NameofTypePretty_msvc_keywords (pre body post : List Char) (z : Char) (k fuel : Nat)
    (hz : z ≠ ' ') (hfuel : k < fuel)
    (hlen : (body ++ [z] ++ List.replicate k ' ').length < SIZE_MOD) :
    ∃ r w, msvc.NameofTypePretty fuel (slice_of pre (body ++ [z] ++ List.replicate k ' ') post) =
        some r ∧ r.std_string = some w ∧
      w = strip_keyword kw_class (strip_keyword kw_struct (strip_keyword kw_enum (body ++ [z]))) ∧
      (∀ kw rest, kw ∈ [kw_class, kw_struct, kw_enum] → body ++ [z] = kw ++ rest → rest ≠ [] →
        (∀ kw1 ∈ [kw_class, kw_struct, kw_enum], kw1.isPrefixOf rest = false) → w = rest) ∧
      ((∀ kw1 ∈ [kw_class, kw_struct, kw_enum], kw1.isPrefixOf (body ++ [z]) = false) →
        w = body ++ [z]) := by
  have hl0 : (body ++ [z]).length < SIZE_MOD := by
    simp only [List.length_append] at hlen ⊢; omega
  have hl1 : (strip_keyword kw_enum (body ++ [z])).length < SIZE_MOD :=
    lt_of_le_of_lt (strip_keyword_length_le _ _) hl0
  have hl2 : (strip_keyword kw_struct (strip_keyword kw_enum (body ++ [z]))).length < SIZE_MOD :=
    lt_of_le_of_lt (strip_keyword_length_le _ _) hl1
  have key : ∃ p, msvc.NameofTypePretty fuel
      (slice_of pre (body ++ [z] ++ List.replicate k ' ') post) =
      some (slice_of p
        (strip_keyword kw_class (strip_keyword kw_struct (strip_keyword kw_enum (body ++ [z]))))
        (List.replicate k ' ' ++ post)) := by
    exact ⟨_, by
      unfold msvc.NameofTypePretty
      rw [RemoveSpaceSuffix_spec pre body z hz k fuel post hfuel hlen]
      simp only [Option.some_bind]
      rw [RemoveEnumPrefix_spec _ _ _ hl0]
      simp only [Option.some_bind]
      rw [RemoveStructPrefix_spec _ _ _ hl1]
      simp only [Option.some_bind]
      rw [RemoveClassPrefix_spec _ _ _ hl2]⟩
  obtain ⟨p, hp⟩ := key
  refine ⟨_, _, hp, std_string_slice_of _ _ _, rfl, ?_, ?_⟩
  · intro kw rest hkw hbody hrest hnone
    have hr : 0 < rest.length := List.length_pos.2 hrest
    have hn1 : kw_class.isPrefixOf rest = false := hnone _ (by simp)
    have hn2 : kw_struct.isPrefixOf rest = false := hnone _ (by simp)
    have hn3 : kw_enum.isPrefixOf rest = false := hnone _ (by simp)
    rw [hbody]
    simp only [List.mem_cons, List.mem_singleton, List.not_mem_nil, or_false] at hkw
    rcases hkw with rfl | rfl | rfl
    · rw [strip_keyword_no_match kw_enum (kw_class ++ rest) rfl,
        strip_keyword_no_match kw_struct (kw_class ++ rest) rfl,
        strip_keyword_append kw_class rest hrest]
    · rw [strip_keyword_no_match kw_enum (kw_struct ++ rest) rfl,
        strip_keyword_append kw_struct rest hrest, strip_keyword_no_match kw_class _ hn1]
    · rw [strip_keyword_append kw_enum rest hrest, strip_keyword_no_match kw_struct _ hn2,
        strip_keyword_no_match kw_class _ hn1]
  · intro hnone
    have hn1 : kw_class.isPrefixOf (body ++ [z]) = false := hnone _ (by simp)
    have hn2 : kw_struct.isPrefixOf (body ++ [z]) = false := hnone _ (by simp)
    have hn3 : kw_enum.isPrefixOf (body ++ [z]) = false := hnone _ (by simp)
    rw [strip_keyword_no_match kw_enum _ hn3, strip_keyword_no_match kw_struct _ hn2,
      strip_keyword_no_match kw_class _ hn1]

/-- C7, witness: `"class MyType "` yields `"MyType"`. -/
theorem NameofTypePretty_msvc_keywords_witness :
    ∃ r, msvc.NameofTypePretty 2 (slice_of [] "class MyType ".toList []) = some r ∧
      r.std_string = some "MyType".toList := by
  obtain ⟨r, w, h1, h2, h3, _⟩ := NameofTypePretty_msvc_keywords [] "class MyTyp".toList []
    'e' 1 2 (by decide) (by decide) (by decide)
  refine ⟨r, h1, ?_⟩
  rw [h2, h3]
  decide

/-- C8, counterexample: the text `"A  "` ends in two spaces, and
`RemoveSpaceSuffix` returns `"A"`, not the text without one space, `"A "`. -/
theorem RemoveSpaceSuffix_two_spaces :
    (msvc.RemoveSpaceSuffix 3 (slice_of [] ['A', ' ', ' '] [])).bind cstring.std_string =
        some ['A'] ∧
      (msvc.RemoveSpaceSuffix 3 (slice_of [] ['A', ' ', ' '] [])).bind cstring.std_string ≠
        some ['A', ' '] := by
  decide

/-- C8, amended: for a text with a character other than a space, the MSVC
cleanup first strips every trailing space (one when the text ends in exactly
one space, none when it does not end in a space), and examines the keyword
tokens on what is left. -/
theorem RemoveSpaceSuffix_all (pre body post : List Char) (z : Char) (k fuel : Nat)
    (hz : z ≠ ' ') (hfuel : k < fuel)
    (hlen : (body ++ [z] ++ List.replicate k ' ').length < SIZE_MOD) :
    msvc.RemoveSpaceSuffix fuel (slice_of pre (body ++ [z] ++ List.replicate k ' ') post) =
        some (slice_of pre (body ++ [z]) (List.replicate k ' ' ++ post)) ∧
      (slice_of pre (body ++ [z]) (List.replicate k ' ' ++ post)).std_string =
        some (body ++ [z]) ∧
      msvc.NameofTypePretty fuel (slice_of pre (body ++ [z] ++ List.replicate k ' ') post) =
        ((msvc.RemoveEnumPrefix (slice_of pre (body ++ [z]) (List.replicate k ' ' ++ post))).bind
          msvc.RemoveStructPrefix).bind msvc.RemoveClassPrefix := by
  have h := RemoveSpaceSuffix_spec pre body z hz k fuel post hfuel hlen
  refine ⟨h, std_string_slice_of _ _ _, ?_⟩
  unfold msvc.NameofTypePretty
  rw [h]
  rfl

/-- C8, witness: `"MyType "` loses its one trailing space, and `"MyType"`
loses nothing. -/
theorem RemoveSpaceSuffix_all_witness :
    msvc.RemoveSpaceSuffix 2 (slice_of [] "MyType ".toList []) =
        some (slice_of [] "MyType".toList [' ']) ∧
      msvc.RemoveSpaceSuffix 2 (slice_of [] "MyType".toList []) =
        some (slice_of [] "MyType".toList []) :=
  ⟨(RemoveSpaceSuffix_all [] "MyTyp".toList [] 'e' 1 2 (by decide) (by decide) (by decide)).1,
    (RemoveSpaceSuffix_all [] "MyTyp".toList [] 'e' 0 2 (by decide) (by decide) (by decide)).1⟩

/-- C9, the failing input: on a build without `NAMEOF_HAS_CONSTEXPR14` two
slices of length 0 whose storage begins with different characters compare
unequal (`==` is false, `!=` is true), because the recursive `StrEquals`
compares `lhs[0]` with `rhs[0]` at `size == 0`; with two default-constructed
slices it reads through a null pointer.  The loop of the C++14 body returns
true on the same slices. -/
theorem eq_empty_pre_cxx14 :
    cstring.eq false (cstring.ctor { mem := ['x', '\x00'], pos := 0 } 0 0 0)
        (cstring.ctor { mem := ['y', '\x00'], pos := 0 } 0 0 0) = some false ∧
      cstring.ne false (cstring.ctor { mem := ['x', '\x00'], pos := 0 } 0 0 0)
        (cstring.ctor { mem := ['y', '\x00'], pos := 0 } 0 0 0) = some true ∧
      cstring.eq false (cstring.ctor { mem := [], pos := 0 } 0 0 0)
        (cstring.ctor { mem := [], pos := 0 } 0 0 0) = none ∧
      cstring.eq true (cstring.ctor { mem := ['x', '\x00'], pos := 0 } 0 0 0)
        (cstring.ctor { mem := ['y', '\x00'], pos := 0 } 0 0 0) = some true := by
  decide

/-- C10: for every slice `s` and index `i`, `s.at(i)` throws
`std::out_of_range` exactly when `i >= s.size()`, and returns the character
`s[i]` of `operator[]` exactly when `i < s.size()`. -/
theorem at_out_of_range (s : cstring) (i : Nat) :
    (s.at i = .error (.out_of_range "cstring::at()") ↔ s.size ≤ i) ∧
      (s.at i = .ok (s.index i) ↔ i < s.size) := by
  unfold cstring.at cstring.size cstring.index
  by_cases h : i < s.size_
  · simp [h]
  · simp [h]
    omega

/-! ## The stages of `NameofPretty` on an arbitrary text -/

/-- The three loops of `NameofPretty` on an arbitrary text `q ++ x ++ t ++ c`:
the first leaves the slice over `q ++ x ++ t`, the second counts the
characters of `t`, the third returns the slice at the identifier run `x`. -/
theorem NameofPretty_stages (pre text post : List Char) (hlen : text.length < SIZE_MOD) :
    ∃ q x t c, text = q ++ x ++ t ++ c ∧ (∀ ch ∈ x, IsLexeme ch = false) ∧
      (∀ ch, q.getLast? = some ch → IsLexeme ch = true) ∧
      NameofPretty_loop1 (slice_of pre text post) text.length 0 0 =
        some (slice_of pre (q ++ x ++ t) (c ++ post)) ∧
      NameofPretty_loop2 (slice_of pre (q ++ x ++ t) (c ++ post)) (q ++ x ++ t).length 0 0 =
        some t.length ∧
      ∀ ws, NameofPretty_loop3 (slice_of pre (q ++ x ++ t) (c ++ post)) ws t.length
            (q.length + x.length) =
          some (slice_of (pre ++ q) (if ws then x ++ t else x)
            (if ws then c ++ post else t ++ (c ++ post))) ∧
        NameofPretty (slice_of pre text post) ws =
          some (slice_of (pre ++ q) (if ws then x ++ t else x)
            (if ws then c ++ post else t ++ (c ++ post))) := by
  obtain ⟨m, hm, h1⟩ := loop1_total pre text post hlen text.length 0 0 rfl
  have hl1 : (text.take m).length = m := by simp; omega
  obtain ⟨s, hs, h2⟩ := loop2_total pre (text.take m) (text.drop m ++ post) m 0 0 (by omega)
  obtain ⟨q, x, hb, hx, hq⟩ := ident_run_split ((text.take m).take (m - s))
  have hsplit : text.take m = q ++ x ++ (text.take m).drop (m - s) := by
    rw [← hb, List.take_append_drop]
  have hlt : ((text.take m).drop (m - s)).length = s := by simp; omega
  have hl3 : (q ++ x ++ (text.take m).drop (m - s)).length < SIZE_MOD := by
    rw [← hsplit, hl1]; omega
  have hqx : q.length + x.length = m - s := by
    have := congrArg List.length hb
    simp at this
    omega
  have h3 (ws : Bool) :=
    loop3_result pre q x ((text.take m).drop (m - s)) (text.drop m ++ post) ws hl3 hx hq
  refine ⟨q, x, (text.take m).drop (m - s), text.drop m, ?_, hx, hq, ?_, ?_, fun ws => ⟨?_, ?_⟩⟩
  · rw [← hsplit, List.take_append_drop]
  · rw [← hsplit]; exact h1
  · rw [← hsplit, hl1, hlt]; exact h2
  · exact h3 ws
  · have hsz0 : (slice_of pre text post).size = text.length := rfl
    have hsz1 : (slice_of pre (text.take m) (text.drop m ++ post)).size = m := by
      simp [slice_of, cstring.size]; omega
    unfold NameofPretty
    rw [hsz0, h1]
    simp only
    rw [hsz1, h2]
    simp only
    rw [size_sub_of_le (by omega) (by omega)]
    have := h3 ws
    rw [← hsplit, hlt, hqx] at this
    exact this

/-- How the first loop ends: without `break` it leaves `name` as it is; with
`break` it stopped at an identifier character or an angle bracket and cut the
text behind it. -/
theorem loop1_breaks_spec (pre text post : List Char) (hlen : text.length < SIZE_MOD) :
    ∀ (i h s : Nat), i + s = text.length →
      (NameofPretty_loop1_breaks (slice_of pre text post) i h = false →
        NameofPretty_loop1 (slice_of pre text post) i h s = some (slice_of pre text post)) ∧
      (NameofPretty_loop1_breaks (slice_of pre text post) i h = true →
        ∃ m z, m < i ∧ text[m]? = some z ∧ (IsLexeme z = false ∨ z = '>' ∨ z = '<') ∧
          NameofPretty_loop1 (slice_of pre text post) i h s =
            some (slice_of pre (text.take (m + 1)) (text.drop (m + 1) ++ post))) := by
  intro i
  induction i with
  | zero =>
    intro h s _
    simp [NameofPretty_loop1, NameofPretty_loop1_breaks]
  | succ i ih =>
    intro h s hs
    have hi : i < text.length := by omega
    have hidx : (slice_of pre text post).index i = some text[i] := by
      rw [index_slice_of pre text post hi, List.getElem?_eq_getElem hi]
    have hstep : ∀ h1, (NameofPretty_loop1_breaks (slice_of pre text post) i h1 = true →
        ∃ m z, m < i + 1 ∧ text[m]? = some z ∧ (IsLexeme z = false ∨ z = '>' ∨ z = '<') ∧
          NameofPretty_loop1 (slice_of pre text post) i h1 (s + 1) =
            some (slice_of pre (text.take (m + 1)) (text.drop (m + 1) ++ post))) := by
      intro h1 hb
      obtain ⟨m, z, hm, hz, hzz, hr⟩ := (ih h1 (s + 1) (by omega)).2 hb
      exact ⟨m, z, by omega, hz, hzz, hr⟩
    unfold NameofPretty_loop1 NameofPretty_loop1_breaks
    rw [hidx]
    simp only
    split_ifs with c1 c2 c3 c4
    · exact ⟨(ih _ _ (by omega)).1, hstep _⟩
    · exact ⟨(ih _ _ (by omega)).1, hstep _⟩
    · exact ⟨(ih _ _ (by omega)).1, hstep _⟩
    · refine ⟨by simp, fun _ => ⟨i, text[i], by omega, List.getElem?_eq_getElem hi, ?_, ?_⟩⟩
      · by_cases hl : IsLexeme text[i] = false
        · exact Or.inl hl
        · right
          have hl1 : IsLexeme text[i] = true := by simpa using hl
          have hb : IsBracket text[i] = true := by
            by_contra hb
            exact c1 ⟨c4, hl1, by simpa using hb⟩
          simp only [not_or] at c2 c3
          simp only [IsBracket, Bool.or_eq_true, beq_iff_eq] at hb
          tauto
      · have := remove_suffix_slice_of pre (text.take (i + 1)) (text.drop (i + 1)) post
          (by simpa using hlen)
        rw [List.take_append_drop] at this
        have hs2 : (text.drop (i + 1)).length = s := by simp; omega
        rw [hs2] at this
        rw [this]
    · exact ⟨(ih _ _ (by omega)).1, hstep _⟩

/-! ## `NameofPretty` applied to its own result -/

theorem loop2_ge (name : cstring) : ∀ (i h s s1 : Nat),
    NameofPretty_loop2 name i h s = some s1 → s ≤ s1 := by
  intro i
  induction i with
  | zero => intro h s s1 hr; simp [NameofPretty_loop2] at hr; omega
  | succ i ih =>
    intro h s s1 hr
    unfold NameofPretty_loop2 at hr
    cases hc : name.index i with
    | none => simp [hc] at hr
    | some c =>
      simp only [hc] at hr
      split_ifs at hr
      · have := ih _ _ _ hr; omega
      · have := ih _ _ _ hr; omega
      · simp at hr; omega
      · have := ih _ _ _ hr; omega

/-- The second loop reads the text from its end: on two texts with the same
end `b` it either stops inside `b` with the same count, or walks over all of
`b` and arrives in front of it with the same nesting counter. -/
theorem loop2_frame (p1 r1 p2 r2 : List Char) : ∀ (b a1 a2 c1 c2 : List Char) (h s : Nat),
    (∃ s1, s1 < s + b.length ∧
      NameofPretty_loop2 (slice_of p1 (a1 ++ b ++ c1) r1) (a1.length + b.length) h s = some s1 ∧
      NameofPretty_loop2 (slice_of p2 (a2 ++ b ++ c2) r2) (a2.length + b.length) h s = some s1) ∨
    (∃ h1,
      NameofPretty_loop2 (slice_of p1 (a1 ++ b ++ c1) r1) (a1.length + b.length) h s =
        NameofPretty_loop2 (slice_of p1 (a1 ++ b ++ c1) r1) a1.length h1 (s + b.length) ∧
      NameofPretty_loop2 (slice_of p2 (a2 ++ b ++ c2) r2) (a2.length + b.length) h s =
        NameofPretty_loop2 (slice_of p2 (a2 ++ b ++ c2) r2) a2.length h1 (s + b.length)) := by
  intro b
  induction b using List.reverseRecOn with
  | nil => intro a1 a2 c1 c2 h s; right; exact ⟨h, by simp, by simp⟩
  | append_singleton b z ih =>
    intro a1 a2 c1 c2 h s
    have e1 : a1 ++ (b ++ [z]) ++ c1 = a1 ++ b ++ z :: c1 := by simp
    have e2 : a2 ++ (b ++ [z]) ++ c2 = a2 ++ b ++ z :: c2 := by simp
    have hl : (b ++ [z]).length = b.length + 1 := by simp
    have i1 : (slice_of p1 (a1 ++ b ++ z :: c1) r1).index (a1.length + b.length) = some z :=
      index_at p1 r1 _ (a1 ++ b) c1 z _ rfl (by simp)
    have i2 : (slice_of p2 (a2 ++ b ++ z :: c2) r2).index (a2.length + b.length) = some z :=
      index_at p2 r2 _ (a2 ++ b) c2 z _ rfl (by simp)
    have ea1 : a1.length + (b.length + 1) = a1.length + b.length + 1 := by omega
    have ea2 : a2.length + (b.length + 1) = a2.length + b.length + 1 := by omega
    rw [e1, e2, hl, ea1, ea2]
    have key : ∀ h1, (∃ s1, s1 < s + (b.length + 1) ∧
        NameofPretty_loop2 (slice_of p1 (a1 ++ b ++ z :: c1) r1) (a1.length + b.length) h1
          (s + 1) = some s1 ∧
        NameofPretty_loop2 (slice_of p2 (a2 ++ b ++ z :: c2) r2) (a2.length + b.length) h1
          (s + 1) = some s1) ∨
      (∃ h2,
        NameofPretty_loop2 (slice_of p1 (a1 ++ b ++ z :: c1) r1) (a1.length + b.length) h1
            (s + 1) =
          NameofPretty_loop2 (slice_of p1 (a1 ++ b ++ z :: c1) r1) a1.length h2
            (s + (b.length + 1)) ∧
        NameofPretty_loop2 (slice_of p2 (a2 ++ b ++ z :: c2) r2) (a2.length + b.length) h1
            (s + 1) =
          NameofPretty_loop2 (slice_of p2 (a2 ++ b ++ z :: c2) r2) a2.length h2
            (s + (b.length + 1))) := by
      intro h1
      rcases ih a1 a2 (z :: c1) (z :: c2) h1 (s + 1) with ⟨s1, hs1, ha, hb⟩ | ⟨h2, ha, hb⟩
      · exact Or.inl ⟨s1, by omega, ha, hb⟩
      · refine Or.inr ⟨h2, ?_, ?_⟩
        · rw [ha]; congr 1; omega
        · rw [hb]; congr 1; omega
    by_cases hcl : z = '>'
    · subst hcl
      rw [loop2_close i1, loop2_close i2]
      exact key _
    · by_cases hop : z = '<'
      · subst hop
        rw [loop2_open i1, loop2_open i2]
        exact key _
      · by_cases hh : h = 0
        · subst hh
          rw [loop2_stop i1 hcl hop, loop2_stop i2 hcl hop]
          exact Or.inl ⟨s, by omega, rfl, rfl⟩
        · rw [loop2_inside i1 hcl hop hh, loop2_inside i2 hcl hop hh]
          exact key _

/-- What the second loop counted on `q ++ x ++ t` it counts again on
`x ++ t`, and a counted text ends in an angle bracket. -/
theorem loop2_on_result (pre q x t r : List Char) (hx : ∀ ch ∈ x, IsLexeme ch = false)
    (h2 : NameofPretty_loop2 (slice_of pre (q ++ x ++ t) r) (q ++ x ++ t).length 0 0 =
      some t.length) :
    NameofPretty_loop2 (slice_of (pre ++ q) (x ++ t) r) (x ++ t).length 0 0 = some t.length ∧
      ∀ z, t.getLast? = some z → z = '>' ∨ z = '<' := by
  constructor
  · have hf := loop2_frame pre r (pre ++ q) r t (q ++ x) x [] [] 0 0
    simp only [List.append_nil, Nat.zero_add] at hf
    have el1 : (q ++ x ++ t).length = (q ++ x).length + t.length := by
      simp only [List.length_append]
    have el2 : (x ++ t).length = x.length + t.length := by simp
    rw [el1] at h2
    rw [el2]
    rcases hf with ⟨s1, hs1, ha, _⟩ | ⟨h1, ha, hb⟩
    · rw [ha] at h2
      have := Option.some.inj h2
      omega
    · rw [hb]
      rw [ha] at h2
      rcases List.eq_nil_or_concat x with hx0 | ⟨x1, z, hxz⟩
      · subst hx0
        simp [NameofPretty_loop2]
      · rw [List.concat_eq_append] at hxz
        subst hxz
        have hz := ident_not_bracket (hx z (by simp))
        have hl : (x1 ++ [z]).length = x1.length + 1 := by simp
        have hlq : (q ++ (x1 ++ [z])).length = (q ++ x1).length + 1 := by simp; omega
        have i1 : (slice_of pre (q ++ (x1 ++ [z]) ++ t) r).index (q ++ x1).length = some z :=
          index_at pre r _ (q ++ x1) t z _ (by simp) rfl
        have i2 : (slice_of (pre ++ q) (x1 ++ [z] ++ t) r).index x1.length = some z :=
          index_at (pre ++ q) r _ x1 t z _ (by simp) rfl
        have hh : h1 = 0 := by
          by_contra hh
          rw [hlq, loop2_inside i1 hz.2.2.1 hz.2.2.2.1 hh] at h2
          have := loop2_ge _ _ _ _ _ h2
          omega
        subst hh
        rw [hl, loop2_stop i2 hz.2.2.1 hz.2.2.2.1]
  · intro z hz
    rcases List.eq_nil_or_concat t with ht0 | ⟨t1, y, hty⟩
    · subst ht0; simp at hz
    · rw [List.concat_eq_append] at hty
      subst hty
      rw [List.getLast?_concat] at hz
      have hzy : y = z := Option.some.inj hz
      subst hzy
      by_contra hne
      simp only [not_or] at hne
      have i1 : (slice_of pre (q ++ x ++ (t1 ++ [y])) r).index (q ++ x ++ t1).length = some y :=
        index_at pre r _ (q ++ x ++ t1) [] y _ (by simp) rfl
      have hl : (q ++ x ++ (t1 ++ [y])).length = (q ++ x ++ t1).length + 1 := by simp; omega
      rw [hl, loop2_stop i1 hne.1 hne.2] at h2
      have := Option.some.inj h2
      simp at this

/-- The slice `x ++ t` that `NameofPretty` returns is a fixed point: on it
the first loop cuts nothing, the second counts `t` again and the third keeps
the identifier run `x`. -/
theorem NameofPretty_on_result (p x t r : List Char) (ws : Bool)
    (hlen : (x ++ t).length < SIZE_MOD) (hx : ∀ ch ∈ x, IsLexeme ch = false)
    (ht : ∀ z, t.getLast? = some z → z = '>' ∨ z = '<')
    (h2 : NameofPretty_loop2 (slice_of p (x ++ t) r) (x ++ t).length 0 0 = some t.length) :
    NameofPretty (slice_of p (x ++ t) r) ws =
      some (slice_of p (if ws then x ++ t else x) (if ws then r else t ++ r)) := by
  have h1 : NameofPretty_loop1 (slice_of p (x ++ t) r) (x ++ t).length 0 0 =
      some (slice_of p (x ++ t) r) := by
    rcases List.eq_nil_or_concat (x ++ t) with h0 | ⟨w, z, hwz⟩
    · rw [h0]; simp [NameofPretty_loop1]
    · rw [List.concat_eq_append] at hwz
      have hz : IsLexeme z = false ∨ z = '>' ∨ z = '<' := by
        have hlast : (x ++ t).getLast? = some z := by rw [hwz, List.getLast?_concat]
        rcases List.eq_nil_or_concat t with ht0 | ⟨t1, y, hty⟩
        · subst ht0
          simp only [List.append_nil] at hlast
          exact Or.inl (hx z (List.mem_of_getLast?_eq_some hlast))
        · rw [List.concat_eq_append] at hty
          subst hty
          rw [← List.append_assoc, List.getLast?_concat] at hlast
          have := Option.some.inj hlast
          subst this
          exact Or.inr (ht y (List.getLast?_concat t1))
      rw [hwz] at hlen ⊢
      have hl : (w ++ [z]).length = w.length + 1 := by simp
      rw [hl, loop1_stop (index_at p r _ w [] z _ (by simp) rfl) hz]
      exact congrArg some (remove_suffix_zero_slice_of p (w ++ [z]) r hlen)
  have h3 := loop3_result p [] x t r ws (by simpa using hlen) hx (by simp)
  simp only [List.nil_append, List.length_nil, Nat.zero_add, List.append_nil] at h3
  have hsz : (slice_of p (x ++ t) r).size = (x ++ t).length := rfl
  unfold NameofPretty
  rw [hsz, h1]
  simp only
  rw [hsz, h2]
  simp only
  rw [size_sub_of_le (by simp) hlen]
  have e : (x ++ t).length - t.length = x.length := by simp
  rw [e, h3]

/-! ## The recursive (pre-C++14) `NameofPretty` -/

/-- When the first loop breaks, `RemoveSuffix` with enough fuel returns what
the loop leaves in `name`. -/
theorem RemoveSuffix_eq_loop1 (pre post : List Char) : ∀ (a b : List Char) (h s fuel : Nat),
    (a ++ b).length < SIZE_MOD → s = b.length → a.length ≤ fuel →
    NameofPretty_loop1_breaks (slice_of pre (a ++ b) post) a.length h = true →
    cxx11.RemoveSuffix fuel (slice_of pre a (b ++ post)) h =
      NameofPretty_loop1 (slice_of pre (a ++ b) post) a.length h s := by
  intro a
  induction a using List.reverseRecOn with
  | nil =>
    intro b h s fuel _ _ _ hb
    simp [NameofPretty_loop1_breaks] at hb
  | append_singleton a c ih =>
    intro b h s fuel hlen hs hfuel hb
    have hl : (a ++ [c]).length = a.length + 1 := by simp
    obtain ⟨f, rfl⟩ : ∃ f, fuel = f + 1 := ⟨fuel - 1, by rw [hl] at hfuel; omega⟩
    have e : a ++ [c] ++ b = a ++ c :: b := by simp
    have hidx : (slice_of pre (a ++ [c] ++ b) post).index a.length = some c :=
      index_at pre post _ a b c _ e rfl
    have hlen1 : (a ++ [c]).length < SIZE_MOD := by
      simp only [List.length_append] at hlen ⊢; omega
    have hback : (slice_of pre (a ++ [c]) (b ++ post)).back = some c :=
      back_slice_of pre a (b ++ post) c hlen1
    have hrs : (slice_of pre (a ++ [c]) (b ++ post)).remove_suffix 1 =
        slice_of pre a ((c :: b) ++ post) := by
      have := remove_suffix_slice_of pre a [c] (b ++ post) hlen1
      simpa using this
    have hstep : ∀ h1, NameofPretty_loop1_breaks (slice_of pre (a ++ [c] ++ b) post) a.length h1 =
        true →
        cxx11.RemoveSuffix f (slice_of pre a ((c :: b) ++ post)) h1 =
          NameofPretty_loop1 (slice_of pre (a ++ [c] ++ b) post) a.length h1 (s + 1) := by
      intro h1 hb1
      rw [e] at hb1 ⊢
      exact ih (c :: b) h1 (s + 1) f (by rw [← e]; exact hlen) (by simp [hs])
        (by rw [hl] at hfuel; omega) hb1
    rw [hl] at hb ⊢
    unfold NameofPretty_loop1_breaks at hb
    unfold cxx11.RemoveSuffix NameofPretty_loop1
    rw [hidx] at hb ⊢
    rw [hback, hrs]
    simp only at hb ⊢
    split_ifs at hb ⊢
    · exact hstep _ hb
    · exact hstep _ hb
    · exact hstep _ hb
    · have := remove_suffix_slice_of pre (a ++ [c]) b post hlen
      rw [hs, this]
    · exact hstep _ hb

/-- When the second loop breaks, `FindSuffix` with enough fuel returns the
count of the loop. -/
theorem FindSuffix_eq_loop2 (pre text post : List Char) (hlen : text.length < SIZE_MOD) :
    ∀ (i h s fuel : Nat), i + s = text.length → i ≤ fuel →
    NameofPretty_loop2_breaks (slice_of pre text post) i h = true →
    cxx11.FindSuffix fuel (slice_of pre text post) h s =
      NameofPretty_loop2 (slice_of pre text post) i h s := by
  intro i
  induction i with
  | zero =>
    intro h s fuel _ _ hb
    simp [NameofPretty_loop2_breaks] at hb
  | succ i ih =>
    intro h s fuel hs hfuel hb
    obtain ⟨f, rfl⟩ : ∃ f, fuel = f + 1 := ⟨fuel - 1, by omega⟩
    have hsz : (slice_of pre text post).size = text.length := rfl
    have hi : size_sub (size_sub text.length 1) s = i := by
      rw [size_sub_of_le (by omega) hlen, size_sub_of_le (by omega) (by omega)]
      omega
    have hs1 : size_add s 1 = s + 1 := size_add_of_lt (by omega)
    unfold NameofPretty_loop2_breaks at hb
    unfold cxx11.FindSuffix NameofPretty_loop2
    rw [hsz, hi, hs1]
    cases hc : (slice_of pre text post).index i with
    | none => simp [hc] at hb
    | some c =>
      simp only [hc] at hb ⊢
      split_ifs at hb ⊢
      · exact ih _ _ f (by omega) (by omega) hb
      · exact ih _ _ f (by omega) (by omega) hb
      · rfl
      · exact ih _ _ f (by omega) (by omega) hb

theorem size_sub_sub {n p : Nat} (hn : n < SIZE_MOD) (hp : p + 1 ≤ n) :
    size_sub (size_sub n 1) p = n - 1 - p := by
  have h1 : size_sub n 1 = n - 1 := size_sub_of_le (by omega) hn
  rw [h1, size_sub_of_le (by omega) (by omega)]

/-- With enough fuel `RemovePrefix` returns the slice at the final run of
identifier characters. -/
theorem RemovePrefix_result (pre a r : List Char)
    (hq : ∀ c, a.getLast? = some c → IsLexeme c = true) :
    ∀ (x1 x2 : List Char) (fuel : Nat), (a ++ (x1 ++ x2)).length < SIZE_MOD →
    (∀ c ∈ x1, IsLexeme c = false) → x1.length < fuel →
    cxx11.RemovePrefix fuel (slice_of pre (a ++ (x1 ++ x2)) r) x2.length =
      some (slice_of (pre ++ a) (x1 ++ x2) r) := by
  intro x1
  induction x1 using List.reverseRecOn with
  | nil =>
    intro x2 fuel hlen _ hfuel
    obtain ⟨f, rfl⟩ : ∃ f, fuel = f + 1 := ⟨fuel - 1, by simp at hfuel; omega⟩
    simp only [List.nil_append] at hlen ⊢
    have hsz : (slice_of pre (a ++ x2) r).size = a.length + x2.length := by
      simp [slice_of, cstring.size]
    unfold cxx11.RemovePrefix
    rw [hsz]
    rcases List.eq_nil_or_concat a with ha | ⟨a1, c, hac⟩
    · subst ha
      simp
    · rw [List.concat_eq_append] at hac
      subst hac
      have hl : (a1 ++ [c]).length = a1.length + 1 := by simp
      have hlen2 : a1.length + 1 + x2.length < SIZE_MOD := by
        simp only [List.length_append, List.length_singleton] at hlen; omega
      have hne : ¬ x2.length = (a1 ++ [c]).length + x2.length := by rw [hl]; omega
      have hi : size_sub (size_sub ((a1 ++ [c]).length + x2.length) 1) x2.length = a1.length := by
        rw [hl, size_sub_sub (by omega) (by omega)]
        omega
      have hp : size_sub ((a1 ++ [c]).length + x2.length) x2.length = (a1 ++ [c]).length := by
        rw [hl, size_sub_of_le (by omega) (by omega)]
        omega
      have hidx : (slice_of pre (a1 ++ [c] ++ x2) r).index a1.length = some c :=
        index_at pre r _ a1 x2 c _ (by simp) rfl
      rw [if_neg hne, hi, hidx]
      simp only [hq c (List.getLast?_concat a1), if_true, hp]
      exact congrArg some (remove_prefix_slice_of pre (a1 ++ [c]) x2 r hlen)
  | append_singleton x1 z ih =>
    intro x2 fuel hlen hx hfuel
    have hl : (x1 ++ [z]).length = x1.length + 1 := by simp
    obtain ⟨f, rfl⟩ : ∃ f, fuel = f + 1 := ⟨fuel - 1, by omega⟩
    have e : a ++ (x1 ++ [z] ++ x2) = a ++ (x1 ++ z :: x2) := by simp
    have e2 : x1 ++ [z] ++ x2 = x1 ++ z :: x2 := by simp
    have hlen2 : a.length + (x1.length + 1 + x2.length) < SIZE_MOD := by
      simp only [List.length_append, List.length_singleton] at hlen; omega
    have hsz : (slice_of pre (a ++ (x1 ++ [z] ++ x2)) r).size =
        a.length + (x1.length + 1 + x2.length) := by
      simp only [slice_of, cstring.size, List.length_append, List.length_singleton]
    have hne : ¬ x2.length = a.length + (x1.length + 1 + x2.length) := by omega
    have hi : size_sub (size_sub (a.length + (x1.length + 1 + x2.length)) 1) x2.length =
        (a ++ x1).length := by
      rw [size_sub_sub (by omega) (by omega)]
      simp only [List.length_append]; omega
    have hidx : (slice_of pre (a ++ (x1 ++ [z] ++ x2)) r).index (a ++ x1).length = some z :=
      index_at pre r _ (a ++ x1) x2 z _ (by simp) rfl
    have hz : IsLexeme z = false := hx z (by simp)
    unfold cxx11.RemovePrefix
    rw [hsz, if_neg hne, hi, hidx]
    simp only [hz, Bool.false_eq_true, if_false]
    rw [size_add_of_lt (by omega), e, e2]
    have := ih (z :: x2) f (by rw [← e]; exact hlen) (fun d hd => hx d (by simp [hd]))
      (by omega)
    simpa using this

theorem add_suffix_slice_of (p x t r : List Char) (h : (x ++ t).length < SIZE_MOD) :
    (slice_of p x (t ++ r)).add_suffix t.length = slice_of p (x ++ t) r := by
  have h1 : (x ++ t).length = x.length + t.length := List.length_append x t
  unfold cstring.add_suffix
  rw [ctor_zero_zero (by unfold size_add; exact Nat.mod_lt _ (by unfold SIZE_MOD; positivity))]
  simp only [slice_of]
  rw [size_add_of_lt (by omega)]
  simp [List.append_assoc]

theorem add_suffix_zero_slice_of (p x r : List Char) (h : x.length < SIZE_MOD) :
    (slice_of p x r).add_suffix 0 = slice_of p x r := by
  have := add_suffix_slice_of p x [] r (by simpa using h)
  simpa using this

/-! ## How the suffix scans end -/

theorem loop1_breaks_stop {name : cstring} {i : Nat} {c : Char} (hi : name.index i = some c)
    (hc : IsLexeme c = false ∨ c = '>' ∨ c = '<') :
    NameofPretty_loop1_breaks name (i + 1) 0 = true := by
  rcases hc with hc | hc | hc
  · have h1 := ident_not_bracket hc
    simp [NameofPretty_loop1_breaks, hi, hc, h1.1, h1.2.1]
  · subst hc
    simp [NameofPretty_loop1_breaks, hi, IsBracket]
  · subst hc
    simp [NameofPretty_loop1_breaks, hi, IsBracket]

/-- Without `break` the second loop counts every character it walks over. -/
theorem loop2_no_break (pre text post : List Char) :
    ∀ (i h s : Nat), i ≤ text.length →
      NameofPretty_loop2_breaks (slice_of pre text post) i h = false →
      NameofPretty_loop2 (slice_of pre text post) i h s = some (s + i) := by
  intro i
  induction i with
  | zero => intro h s _ _; simp [NameofPretty_loop2]
  | succ i ih =>
    intro h s hi hb
    have hi1 : i < text.length := by omega
    have hidx : (slice_of pre text post).index i = some text[i] := by
      rw [index_slice_of pre text post hi1, List.getElem?_eq_getElem hi1]
    unfold NameofPretty_loop2_breaks at hb
    unfold NameofPretty_loop2
    rw [hidx] at hb ⊢
    simp only at hb ⊢
    split_ifs at hb ⊢
    · rw [ih _ _ (by omega) hb]; congr 1; omega
    · rw [ih _ _ (by omega) hb]; congr 1; omega
    · rw [ih _ _ (by omega) hb]; congr 1; omega

/-- On a text that is one balanced bracket group the first loop reaches the
start of the text and leaves `name` as it is. -/
theorem loop1_group (pre c post : List Char) (hlen : c.length < SIZE_MOD)
    (hc : isCallSuffix c = true) :
    NameofPretty_loop1 (slice_of pre c post) c.length 0 0 = some (slice_of pre c post) := by
  obtain ⟨o, inner, cl, rfl, ho, hcl, hbal⟩ := isCallSuffix_split hc
  have hl : (o :: (inner ++ [cl])).length = 0 + 1 + inner.length + 1 := by simp; omega
  have hd0 : depth isCallOpen isCallClose inner = 0 := by
    simpa using (balanced_depth _ _ inner 0 hbal).1
  rw [hl] at hlen
  rw [hl, loop1_close (index_at pre post _ (o :: inner) [] cl _ (by simp) (by simp; omega)) hcl,
    size_add_of_lt (by unfold SIZE_MOD; omega)]
  have hn := loop1_nested pre post inner [o] [cl] 1 1 (by simp; omega) (by omega) (by
    intro k _ _
    have := balanced_drop _ _ inner hbal k
    omega)
  have e1 : [o] ++ inner ++ [cl] = o :: (inner ++ [cl]) := by simp
  have e2 : ([o] : List Char).length = 0 + 1 := by simp
  rw [e1, e2, hd0] at hn
  rw [hn]
  simp only [Nat.cast_one, sub_zero, Int.toNat_one]
  rw [loop1_open (index_at pre post _ [] (inner ++ [cl]) o _ (by simp) (by simp)) ho]
  simp [NameofPretty_loop1]

/-- On `q ++ x ++ t ++ c` both suffix scans meet their stopping character. -/
theorem scans_break_shape (pre q x t c post : List Char)
    (hlen : (q ++ x ++ t ++ c).length < SIZE_MOD)
    (hx : isIdentifier x = true)
    (ht : t = [] ∨ isTemplateSuffix t = true) (hc : c = [] ∨ isCallSuffix c = true) :
    NameofPretty_scans_break (slice_of pre (q ++ x ++ t ++ c) post) = true := by
  obtain ⟨hxall, x1, z, hxz, hz⟩ := isIdentifier_split hx
  have hzb := ident_not_bracket hz
  have hl3 : (q ++ x ++ t).length < SIZE_MOD := by
    simp only [List.length_append] at hlen ⊢; omega
  have hsz : (slice_of pre (q ++ x ++ t ++ c) post).size = (q ++ x ++ t ++ c).length := rfl
  have hsz1 : (slice_of pre (q ++ x ++ t) (c ++ post)).size = (q ++ x ++ t).length := rfl
  -- the last character in front of `c`
  obtain ⟨a, y, hay, hy⟩ : ∃ a y, q ++ x ++ t = a ++ [y] ∧
      (IsLexeme y = false ∨ y = '>' ∨ y = '<') := by
    rcases ht with ht0 | ht1
    · exact ⟨q ++ x1, z, by simp [ht0, hxz], Or.inl hz⟩
    · obtain ⟨t1, ht1⟩ := template_last ht1
      exact ⟨q ++ x ++ t1, '>', by simp [ht1], Or.inr (Or.inl rfl)⟩
  have h1 : NameofPretty_loop1 (slice_of pre (q ++ x ++ t ++ c) post)
      (q ++ x ++ t ++ c).length 0 0 = some (slice_of pre (q ++ x ++ t) (c ++ post)) := by
    rw [hay] at hlen ⊢
    exact loop1_call pre a c post y hlen hy hc
  have h2 : NameofPretty_loop2 (slice_of pre (q ++ x ++ t) (c ++ post))
      (q ++ x ++ t).length 0 0 = some t.length := by
    have e : q ++ x ++ t = q ++ x1 ++ [z] ++ t := by simp [hxz]
    rw [e] at hl3 ⊢
    exact loop2_template pre (q ++ x1) t (c ++ post) z hl3 hzb.2.2.1 hzb.2.2.2.1 ht
  have hb1 : NameofPretty_loop1_breaks (slice_of pre (q ++ x ++ t ++ c) post)
      (q ++ x ++ t ++ c).length 0 = true := by
    by_contra hb
    have hb : NameofPretty_loop1_breaks (slice_of pre (q ++ x ++ t ++ c) post)
        (q ++ x ++ t ++ c).length 0 = false := by simpa using hb
    have h0 := (loop1_breaks_spec pre (q ++ x ++ t ++ c) post hlen _ 0 0 rfl).1 hb
    rw [h1] at h0
    have hsize := congrArg cstring.size_ (Option.some.inj h0)
    have hc0 : c = [] := by
      simp only [slice_of, List.length_append] at hsize
      exact List.length_eq_zero.1 (by omega)
    subst hc0
    have hl : (q ++ x ++ t ++ []).length = a.length + 1 := by simp [hay]
    have hidx : (slice_of pre (q ++ x ++ t ++ []) post).index a.length = some y :=
      index_at pre post _ a [] y _ (by simp [hay]) rfl
    rw [hl, loop1_breaks_stop hidx hy] at hb
    exact Bool.noConfusion hb
  have hb2 : NameofPretty_loop2_breaks (slice_of pre (q ++ x ++ t) (c ++ post))
      (q ++ x ++ t).length 0 = true := by
    by_contra hb
    have hb : NameofPretty_loop2_breaks (slice_of pre (q ++ x ++ t) (c ++ post))
        (q ++ x ++ t).length 0 = false := by simpa using hb
    have h0 := loop2_no_break pre (q ++ x ++ t) (c ++ post) _ 0 0 (Nat.le_refl _) hb
    rw [h2] at h0
    have := Option.some.inj h0
    simp only [List.length_append, hxz, List.length_singleton] at this
    omega
  unfold NameofPretty_scans_break
  rw [hsz, hb1, h1]
  simp only [Bool.true_and]
  rw [hsz1, hb2]

/-! ## Texts without brackets -/

/-- At nesting 0 the first loop walks back over characters that are neither
identifier characters nor brackets. -/
theorem loop1_skip_run (pre post : List Char) : ∀ (w a b : List Char) (s : Nat),
    (∀ ch ∈ w, IsLexeme ch = true ∧ IsBracket ch = false) →
    NameofPretty_loop1 (slice_of pre (a ++ w ++ b) post) (a.length + w.length) 0 s =
      NameofPretty_loop1 (slice_of pre (a ++ w ++ b) post) a.length 0 (s + w.length) := by
  intro w
  induction w using List.reverseRecOn with
  | nil => intro a b s _; simp
  | append_singleton w c ih =>
    intro a b s hw
    have htext : a ++ (w ++ [c]) ++ b = a ++ w ++ c :: b := by simp
    have hidx : (slice_of pre (a ++ w ++ c :: b) post).index (a.length + w.length) = some c :=
      index_at pre post _ (a ++ w) b c _ (by simp) (by simp)
    have hl : (w ++ [c]).length = w.length + 1 := by simp
    have hc := hw c (by simp)
    rw [htext, hl, ← Nat.add_assoc, loop1_skip hidx hc.1 hc.2,
      ih a (c :: b) (s + 1) (fun d hd => hw d (by simp [hd]))]
    congr 1
    omega

/-! ## The two bodies of `StrEquals` -/

theorem read_slice_of (pre text post : List Char) {i : Nat} (hi : i < text.length) :
    (slice_of pre text post).str_.read i = some text[i] := by
  have := index_slice_of pre text post hi
  rw [List.getElem?_eq_getElem hi] at this
  exact this

/-- The loop body of `StrEquals` on two slices of the same length says whether
their texts are equal. -/
theorem StrEquals_loop_from_slices (p1 u r1 p2 v r2 : List Char) (huv : u.length = v.length) :
    ∀ (n i : Nat), i + n = u.length →
      StrEquals_loop_from (slice_of p1 u r1).str_ (slice_of p2 v r2).str_ i n =
        some (decide (u.drop i = v.drop i)) := by
  intro n
  induction n with
  | zero =>
    intro i hi
    have h1 : u.drop i = [] := List.drop_eq_nil_of_le (by omega)
    have h2 : v.drop i = [] := List.drop_eq_nil_of_le (by omega)
    simp [StrEquals_loop_from, h1, h2]
  | succ n ih =>
    intro i hi
    have hiu : i < u.length := by omega
    have hiv : i < v.length := by omega
    unfold StrEquals_loop_from
    rw [read_slice_of p1 u r1 hiu, read_slice_of p2 v r2 hiv, List.drop_eq_getElem_cons hiu,
      List.drop_eq_getElem_cons hiv]
    simp only
    by_cases h : u[i] = v[i]
    · simp only [h, ne_eq, not_true_eq_false, if_false]
      rw [ih (i + 1) (by omega)]
      simp only [List.cons.injEq, true_and]
    · simp only [h, ne_eq, not_false_eq_true, if_true, List.cons.injEq, false_and,
        decide_False]

theorem StrEquals_loop_slices (p1 u r1 p2 v r2 : List Char) (huv : u.length = v.length) :
    StrEquals_loop (slice_of p1 u r1).str_ (slice_of p2 v r2).str_ u.length =
      some (decide (u = v)) := by
  have := StrEquals_loop_from_slices p1 u r1 p2 v r2 huv u.length 0 (by omega)
  simpa [StrEquals_loop] using this

/-- The recursive body of `StrEquals` on a size that is not 0 says whether the
two texts are equal up to that size. -/
theorem StrEquals_rec_slices (p1 u r1 p2 v r2 : List Char) :
    ∀ (n : Nat), n + 1 ≤ u.length → n + 1 ≤ v.length →
      StrEquals_rec (slice_of p1 u r1).str_ (slice_of p2 v r2).str_ (n + 1) =
        some (decide (u.take (n + 1) = v.take (n + 1))) := by
  intro n
  induction n with
  | zero =>
    intro hu hv
    have hu0 : 0 < u.length := by omega
    have hv0 : 0 < v.length := by omega
    unfold StrEquals_rec
    rw [read_slice_of p1 u r1 hu0, read_slice_of p2 v r2 hv0]
    simp only
    unfold StrEquals_rec
    rw [read_slice_of p1 u r1 hu0, read_slice_of p2 v r2 hv0]
    simp only
    rw [List.take_one, List.take_one, List.head?_eq_getElem?, List.head?_eq_getElem?,
      List.getElem?_eq_getElem hu0, List.getElem?_eq_getElem hv0]
    by_cases h : u[0] = v[0]
    · simp [h]
    · simp [h]
  | succ n ih =>
    intro hu hv
    have hun : n + 1 < u.length := by omega
    have hvn : n + 1 < v.length := by omega
    unfold StrEquals_rec
    rw [read_slice_of p1 u r1 hun, read_slice_of p2 v r2 hvn]
    simp only
    rw [ih (by omega) (by omega), List.take_succ (n := n + 1), List.take_succ (n := n + 1),
      List.getElem?_eq_getElem hun, List.getElem?_eq_getElem hvn]
    simp only [Option.toList]
    by_cases h : u[n + 1] = v[n + 1]
    · simp only [h, if_true, List.append_left_inj]
    · simp only [h, if_false]
      congr 1
      have : ¬ (List.take (n + 1) u ++ [u[n + 1]] = List.take (n + 1) v ++ [v[n + 1]]) := by
        intro e
        have := List.append_inj' e rfl
        exact h (by simpa using this.2)
      exact (decide_eq_false this).symm

/-- Both bodies of `StrEquals` agree on two slices of the same length, except
on the recursive body at size 0. -/
theorem StrEquals_slices (cfg : Bool) (p1 u r1 p2 v r2 : List Char) (huv : u.length = v.length)
    (hcfg : cfg = true ∨ u ≠ []) :
    StrEquals cfg (slice_of p1 u r1).str_ (slice_of p2 v r2).str_ u.length =
      some (decide (u = v)) := by
  unfold StrEquals
  cases cfg
  · simp only [Bool.false_eq_true, if_false]
    have hne : u ≠ [] := by
      rcases hcfg with h | h
      · exact absurd h (by decide)
      · exact h
    obtain ⟨n, hn⟩ : ∃ n, u.length = n + 1 :=
      ⟨u.length - 1, by have := List.length_pos.2 hne; omega⟩
    have := StrEquals_rec_slices p1 u r1 p2 v r2 n (by omega) (by omega)
    rw [hn, this, ← hn, List.take_length]
    have hv : List.take u.length v = v := by rw [huv, List.take_length]
    rw [hv]
  · simp only [if_true]
    exact StrEquals_loop_slices p1 u r1 p2 v r2 huv

/-- On slices, `==` says whether the texts are equal: on the C++14 build
always, on the pre-C++14 build unless both slices are empty. -/
theorem eq_slices (cfg : Bool) (p1 u r1 p2 v r2 : List Char)
    (hcfg : cfg = true ∨ u ≠ [] ∨ v ≠ []) :
    cstring.eq cfg (slice_of p1 u r1) (slice_of p2 v r2) = some (decide (u = v)) := by
  unfold cstring.eq
  have hs1 : (slice_of p1 u r1).size_ = u.length := rfl
  have hs2 : (slice_of p2 v r2).size_ = v.length := rfl
  rw [hs1, hs2]
  by_cases huv : u.length = v.length
  · rw [if_pos huv]
    refine StrEquals_slices cfg p1 u r1 p2 v r2 huv ?_
    rcases hcfg with h | h | h
    · exact Or.inl h
    · exact Or.inr h
    · right
      intro hu
      apply h
      apply List.length_eq_zero.1
      rw [← huv, hu]
      rfl
  · rw [if_neg huv]
    have : u ≠ v := fun e => huv (by rw [e])
    simp [this]

/-! ## `compare` and the dictionary order -/

theorem lex_cmp_eq_zero : ∀ (u v : List Char), lex_cmp u v = 0 ↔ u = v
  | [], [] => by simp [lex_cmp]
  | [], _ :: _ => by simp [lex_cmp]
  | _ :: _, [] => by simp [lex_cmp]
  | a :: as, b :: bs => by
    unfold lex_cmp
    by_cases h1 : a < b
    · simp only [h1, if_true]
      have : a ≠ b := ne_of_lt h1
      simp [this]
    · by_cases h2 : b < a
      · simp only [h1, h2, if_true, if_false]
        have : a ≠ b := (ne_of_lt h2).symm
        simp [this]
      · simp only [h1, h2, if_false]
        have hab : a = b := le_antisymm (not_lt.1 h2) (not_lt.1 h1)
        rw [lex_cmp_eq_zero as bs]
        simp [hab]

theorem lex_cmp_neg_iff : ∀ (u v : List Char), lex_cmp u v < 0 ↔ u < v
  | [], [] => by
    simp only [lex_cmp, lt_self_iff_false]
  | [], b :: bs => by
    simp only [lex_cmp, Int.reduceNeg, Left.neg_neg_iff, zero_lt_one, true_iff]
    exact List.Lex.nil
  | a :: as, [] => by
    simp only [lex_cmp]
    constructor
    · intro h; omega
    · intro h; cases h
  | a :: as, b :: bs => by
    unfold lex_cmp
    by_cases h1 : a < b
    · simp only [h1, if_true, Int.reduceNeg, Left.neg_neg_iff, zero_lt_one, true_iff]
      exact List.Lex.rel h1
    · by_cases h2 : b < a
      · simp only [h1, h2, if_true, if_false]
        constructor
        · intro h; omega
        · intro h
          cases h with
          | cons _ => exact absurd h2 (lt_irrefl _)
          | rel h => exact absurd h h1
      · simp only [h1, h2, if_false]
        have hab : a = b := le_antisymm (not_lt.1 h2) (not_lt.1 h1)
        subst hab
        rw [lex_cmp_neg_iff as bs]
        constructor
        · intro h; exact List.Lex.cons h
        · intro h
          cases h with
          | cons h => exact h
          | rel h => exact absurd h h1

theorem lex_cmp_swap : ∀ (u v : List Char), lex_cmp v u = -lex_cmp u v
  | [], [] => by simp [lex_cmp]
  | [], _ :: _ => by simp [lex_cmp]
  | _ :: _, [] => by simp [lex_cmp]
  | a :: as, b :: bs => by
    unfold lex_cmp
    by_cases h1 : a < b
    · have h2 : ¬ b < a := lt_asymm h1
      simp [h1, h2]
    · by_cases h2 : b < a
      · simp [h1, h2]
      · simp only [h1, h2, if_false]
        exact lex_cmp_swap as bs

/-- The library comparison on the common length of two slices, followed by the
comparison of the lengths, is the dictionary comparison of the texts. -/
theorem char_traits_compare_slices (p1 u r1 p2 v r2 : List Char) : ∀ (n i : Nat),
    i ≤ u.length → i ≤ v.length → n = min (u.length - i) (v.length - i) →
    ∃ r0 : Int, cstring.char_traits_compare_from (slice_of p1 u r1).str_
        (slice_of p2 v r2).str_ i n = some r0 ∧
      (if r0 ≠ 0 then r0
        else if u.length = v.length then 0 else if u.length < v.length then -1 else 1) =
        lex_cmp (u.drop i) (v.drop i) := by
  intro n
  induction n with
  | zero =>
    intro i hu hv hn
    refine ⟨0, by simp [cstring.char_traits_compare_from], ?_⟩
    simp only [ne_eq, not_true_eq_false, if_false]
    cases hdu : u.drop i with
    | nil =>
      have h1 : u.length - i = 0 := by
        have := congrArg List.length hdu
        simpa using this
      cases hdv : v.drop i with
      | nil =>
        have h2 : v.length - i = 0 := by
          have := congrArg List.length hdv
          simpa using this
        have : u.length = v.length := by omega
        simp [lex_cmp, this]
      | cons b bs =>
        have h2 : v.length - i = bs.length + 1 := by
          have := congrArg List.length hdv
          simpa using this
        have h3 : u.length ≠ v.length := by omega
        have h4 : u.length < v.length := by omega
        simp [lex_cmp, h3, h4]
    | cons a as =>
      have h1 : u.length - i = as.length + 1 := by
        have := congrArg List.length hdu
        simpa using this
      cases hdv : v.drop i with
      | nil =>
        have h2 : v.length - i = 0 := by
          have := congrArg List.length hdv
          simpa using this
        have h3 : u.length ≠ v.length := by omega
        have h4 : ¬ u.length < v.length := by omega
        simp [lex_cmp, h3, h4]
      | cons b bs =>
        have h2 : v.length - i = bs.length + 1 := by
          have := congrArg List.length hdv
          simpa using this
        omega
  | succ n ih =>
    intro i hu hv hn
    have hiu : i < u.length := by omega
    have hiv : i < v.length := by omega
    unfold cstring.char_traits_compare_from
    rw [read_slice_of p1 u r1 hiu, read_slice_of p2 v r2 hiv, List.drop_eq_getElem_cons hiu,
      List.drop_eq_getElem_cons hiv]
    simp only
    unfold lex_cmp
    by_cases h1 : u[i] < v[i]
    · exact ⟨-1, by simp [h1], by simp [h1]⟩
    · by_cases h2 : v[i] < u[i]
      · exact ⟨1, by simp [h1, h2], by simp [h1, h2]⟩
      · simp only [h1, h2, if_false]
        exact ih (i + 1) (by omega) (by omega) (by omega)

theorem compare_slices (p1 u r1 p2 v r2 : List Char) :
    (slice_of p1 u r1).compare (slice_of p2 v r2) = some (lex_cmp u v) := by
  have hs1 : (slice_of p1 u r1).size_ = u.length := rfl
  have hs2 : (slice_of p2 v r2).size_ = v.length := rfl
  obtain ⟨r0, h1, h2⟩ := char_traits_compare_slices p1 u r1 p2 v r2
    (if v.length < u.length then v.length else u.length) 0 (Nat.zero_le _) (Nat.zero_le _)
    (by split_ifs <;> omega)
  simp only [List.drop_zero] at h2
  unfold cstring.compare cstring.char_traits_compare
  rw [hs1, hs2, h1]
  simp only
  rw [← h2]
  split_ifs <;> rfl

/-! ## The claims, continued -/

/-- C13: for every prefix `q` that is empty or ends in a non-identifier
character, every identifier `x`, every balanced template suffix `t` and every
balanced call suffix `c`, `NameofPretty(q ++ x ++ t ++ c, true)` returns the
slice `x ++ t` and `NameofPretty(q ++ x ++ t ++ c, false)` the slice `x`: the
call suffix is dropped also when the template suffix is kept. -/
theorem NameofPretty_template_call_suffix (pre post q x t c : List Char)
    (hlen : (q ++ x ++ t ++ c).length < SIZE_MOD)
    (hq : endsOutsideIdent q = true) (hx : isIdentifier x = true)
    (ht : isTemplateSuffix t = true) (hc : isCallSuffix c = true) :
    (NameofPretty (slice_of pre (q ++ x ++ t ++ c) post) true =
        some (slice_of (pre ++ q) (x ++ t) (c ++ post)) ∧
      (slice_of (pre ++ q) (x ++ t) (c ++ post)).std_string = some (x ++ t)) ∧
    (NameofPretty (slice_of pre (q ++ x ++ t ++ c) post) false =
        some (slice_of (pre ++ q) x (t ++ (c ++ post))) ∧
      (slice_of (pre ++ q) x (t ++ (c ++ post))).std_string = some x) := by
  have h (ws : Bool) := NameofPretty_shape pre q x t c post ws hlen hq hx (Or.inr ht) (Or.inr hc)
  have h1 := h true
  have h2 := h false
  simp only [if_true] at h1
  simp only [Bool.false_eq_true, if_false] at h2
  exact ⟨⟨h1, std_string_slice_of _ _ _⟩, ⟨h2, std_string_slice_of _ _ _⟩⟩

/-- C13, witness: `"ns::make<Outer<Inner>>{f(1), 2}"` yields
`"make<Outer<Inner>>"` and `"make"`. -/
theorem NameofPretty_template_call_suffix_witness :
    (NameofPretty (slice_of [] "ns::make<Outer<Inner>>{f(1), 2}".toList ['\x00']) true =
        some (slice_of "ns::".toList "make<Outer<Inner>>".toList
          ("{f(1), 2}".toList ++ ['\x00'])) ∧
      (slice_of "ns::".toList "make<Outer<Inner>>".toList
          ("{f(1), 2}".toList ++ ['\x00'])).std_string = some "make<Outer<Inner>>".toList) ∧
    (NameofPretty (slice_of [] "ns::make<Outer<Inner>>{f(1), 2}".toList ['\x00']) false =
        some (slice_of "ns::".toList "make".toList
          ("<Outer<Inner>>".toList ++ ("{f(1), 2}".toList ++ ['\x00']))) ∧
      (slice_of "ns::".toList "make".toList
          ("<Outer<Inner>>".toList ++ ("{f(1), 2}".toList ++ ['\x00']))).std_string =
        some "make".toList) :=
  NameofPretty_template_call_suffix [] ['\x00'] "ns::".toList "make".toList
    "<Outer<Inner>>".toList "{f(1), 2}".toList (by decide) (by decide) (by decide) (by decide)
    (by decide)

/-- C18: for every text `n`, `NameofPretty(n, false)` and `NameofPretty(n, true)`
are slices of `n` that start at the same offset, the first is an initial part
of the second, and what follows it in the second are the characters the second
loop counted: `n` is `q ++ x ++ t ++ c`, the results are the slices over `x`
and over `x ++ t` at offset `q.length`, and the second loop, on the text
`q ++ x ++ t` the first one leaves, returns `t.length`. -/
theorem NameofPretty_substrings (pre text post : List Char) (hlen : text.length < SIZE_MOD) :
    ∃ q x t c, text = q ++ x ++ t ++ c ∧
      NameofPretty (slice_of pre text post) false =
        some (slice_of (pre ++ q) x (t ++ (c ++ post))) ∧
      NameofPretty (slice_of pre text post) true =
        some (slice_of (pre ++ q) (x ++ t) (c ++ post)) ∧
      (slice_of (pre ++ q) x (t ++ (c ++ post))).str_ =
        (slice_of pre text post).str_.add q.length ∧
      (slice_of (pre ++ q) (x ++ t) (c ++ post)).str_ =
        (slice_of pre text post).str_.add q.length ∧
      (slice_of (pre ++ q) x (t ++ (c ++ post))).std_string = some x ∧
      (slice_of (pre ++ q) (x ++ t) (c ++ post)).std_string = some (x ++ t) ∧
      ∃ name1, NameofPretty_loop1 (slice_of pre text post) (slice_of pre text post).size 0 0 =
          some name1 ∧
        name1.std_string = some (q ++ x ++ t) ∧
        NameofPretty_loop2 name1 name1.size 0 0 = some t.length := by
  obtain ⟨q, x, t, c, htext, _, _, h1, h2, h3⟩ := NameofPretty_stages pre text post hlen
  have hf := (h3 false).2
  have ht := (h3 true).2
  simp only [Bool.false_eq_true, if_false] at hf
  simp only [if_true] at ht
  refine ⟨q, x, t, c, htext, hf, ht, ?_, ?_, std_string_slice_of _ _ _,
    std_string_slice_of _ _ _, _, h1, std_string_slice_of _ _ _, h2⟩
  · subst htext
    simp [slice_of, CharPtr.add, List.append_assoc]
  · subst htext
    simp [slice_of, CharPtr.add, List.append_assoc]

/-- C18, witness: on `"vec.at(i).member<T>(0)"` both results start at offset
10, and `"member"` is followed by the counted `"<T>"`. -/
theorem NameofPretty_substrings_witness :
    ∃ q x t c, "vec.at(i).member<T>(0)".toList = q ++ x ++ t ++ c ∧
      NameofPretty (slice_of [] "vec.at(i).member<T>(0)".toList []) false =
        some (slice_of ([] ++ q) x (t ++ (c ++ []))) ∧
      NameofPretty (slice_of [] "vec.at(i).member<T>(0)".toList []) true =
        some (slice_of ([] ++ q) (x ++ t) (c ++ [])) ∧
      (slice_of ([] ++ q) x (t ++ (c ++ []))).str_ =
        (slice_of [] "vec.at(i).member<T>(0)".toList []).str_.add q.length ∧
      (slice_of ([] ++ q) (x ++ t) (c ++ [])).str_ =
        (slice_of [] "vec.at(i).member<T>(0)".toList []).str_.add q.length ∧
      (slice_of ([] ++ q) x (t ++ (c ++ []))).std_string = some x ∧
      (slice_of ([] ++ q) (x ++ t) (c ++ [])).std_string = some (x ++ t) ∧
      ∃ name1, NameofPretty_loop1 (slice_of [] "vec.at(i).member<T>(0)".toList [])
          (slice_of [] "vec.at(i).member<T>(0)".toList []).size 0 0 = some name1 ∧
        name1.std_string = some (q ++ x ++ t) ∧
        NameofPretty_loop2 name1 name1.size 0 0 = some t.length :=
  NameofPretty_substrings [] "vec.at(i).member<T>(0)".toList [] (by decide)

/-- C19: `NameofPretty` is idempotent for each value of the flag, and the bare
name of the full name is the bare name: with `r0 = NameofPretty(n, false)` and
`r1 = NameofPretty(n, true)`, `NameofPretty(r0, false) = r0`,
`NameofPretty(r1, true) = r1` and `NameofPretty(r1, false) = r0`. -/
theorem NameofPretty_idempotent (pre text post : List Char) (hlen : text.length < SIZE_MOD) :
    ∃ r0 r1, NameofPretty (slice_of pre text post) false = some r0 ∧
      NameofPretty (slice_of pre text post) true = some r1 ∧
      NameofPretty r0 false = some r0 ∧
      NameofPretty r1 true = some r1 ∧
      NameofPretty r1 false = some r0 := by
  obtain ⟨q, x, t, c, htext, hx, _, _, h2, h3⟩ := NameofPretty_stages pre text post hlen
  have hf := (h3 false).2
  have ht := (h3 true).2
  simp only [Bool.false_eq_true, if_false] at hf
  simp only [if_true] at ht
  have hl : (x ++ t).length < SIZE_MOD := by
    rw [htext] at hlen
    simp only [List.length_append] at hlen ⊢
    omega
  obtain ⟨h2r, htl⟩ := loop2_on_result pre q x t (c ++ post) hx h2
  have hr (ws : Bool) := NameofPretty_on_result (pre ++ q) x t (c ++ post) ws hl hx htl h2r
  have h20 : NameofPretty_loop2 (slice_of (pre ++ q) (x ++ []) (t ++ (c ++ post)))
      (x ++ []).length 0 0 = some ([] : List Char).length := by
    simp only [List.append_nil, List.length_nil]
    rcases List.eq_nil_or_concat x with hx0 | ⟨x1, z, hxz⟩
    · subst hx0; simp [NameofPretty_loop2]
    · rw [List.concat_eq_append] at hxz
      subst hxz
      have hz := ident_not_bracket (hx z (by simp))
      have hl1 : (x1 ++ [z]).length = x1.length + 1 := by simp
      rw [hl1, loop2_stop (index_at (pre ++ q) _ _ x1 [] z _ (by simp) rfl) hz.2.2.1 hz.2.2.2.1]
  have hr0 := NameofPretty_on_result (pre ++ q) x [] (t ++ (c ++ post)) false
    (by simp only [List.length_append] at hl ⊢; simp; omega) hx (by simp) h20
  simp only [List.append_nil, Bool.false_eq_true, if_false, List.nil_append] at hr0
  have hr1 := hr true
  have hr2 := hr false
  simp only [if_true] at hr1
  simp only [Bool.false_eq_true, if_false] at hr2
  exact ⟨_, _, hf, ht, hr0, hr1, hr2⟩

/-- C19, witness: the text `"a::b<c>(d)"`. -/
theorem NameofPretty_idempotent_witness :
    ∃ r0 r1, NameofPretty (slice_of [] "a::b<c>(d)".toList ['\x00']) false = some r0 ∧
      NameofPretty (slice_of [] "a::b<c>(d)".toList ['\x00']) true = some r1 ∧
      NameofPretty r0 false = some r0 ∧
      NameofPretty r1 true = some r1 ∧
      NameofPretty r1 false = some r0 :=
  NameofPretty_idempotent [] "a::b<c>(d)".toList ['\x00'] (by decide)

/-- C14: on every text on which both suffix scans meet their stopping
character before the start of the text, the recursive (pre-C++14)
`NameofPretty`, given more fuel than the text has characters, returns the
slice the loop-based `NameofPretty` returns, for both values of `with_suffix`;
and every text `q ++ x ++ t ++ c` with an identifier `x`, a template suffix or
none and a call suffix or none is such a text. -/
theorem NameofPretty_recursive_eq_loop (pre text post : List Char) (ws : Bool) (fuel : Nat)
    (hlen : text.length < SIZE_MOD) (hfuel : text.length < fuel) :
    (NameofPretty_scans_break (slice_of pre text post) = true →
      ∃ r, NameofPretty (slice_of pre text post) ws = some r ∧
        cxx11.NameofPretty fuel (slice_of pre text post) ws = some r) ∧
    (∀ q x t c, text = q ++ x ++ t ++ c → isIdentifier x = true →
      (t = [] ∨ isTemplateSuffix t = true) → (c = [] ∨ isCallSuffix c = true) →
      NameofPretty_scans_break (slice_of pre text post) = true) := by
  constructor
  · intro hstop
    obtain ⟨q, x, t, c, htext, hx, hq, h1, h2, h3⟩ := NameofPretty_stages pre text post hlen
    have hl3 : (q ++ x ++ t).length < SIZE_MOD := by
      rw [htext] at hlen
      simp only [List.length_append] at hlen ⊢; omega
    have hl3f : (q ++ x ++ t).length < fuel := by
      rw [htext] at hfuel
      simp only [List.length_append] at hfuel ⊢; omega
    have hsz : (slice_of pre text post).size = text.length := rfl
    have hsz1 : (slice_of pre (q ++ x ++ t) (c ++ post)).size = (q ++ x ++ t).length := rfl
    simp only [NameofPretty_scans_break, Bool.and_eq_true] at hstop
    obtain ⟨hb1, hb2⟩ := hstop
    rw [hsz] at hb1 hb2
    rw [h1] at hb2
    simp only [hsz1] at hb2
    have r1 := RemoveSuffix_eq_loop1 pre post text [] 0 0 fuel (by simpa using hlen) rfl
      (by omega) (by simpa using hb1)
    simp only [List.append_nil, List.nil_append] at r1
    rw [h1] at r1
    have r2 := FindSuffix_eq_loop2 pre (q ++ x ++ t) (c ++ post) hl3 (q ++ x ++ t).length 0 0
      fuel (by simp) (by omega) hb2
    rw [h2] at r2
    have r3 := RemovePrefix_result pre q (t ++ (c ++ post)) hq x [] fuel
      (by simp only [List.length_append] at hl3 ⊢; simp; omega) hx
      (by simp only [List.length_append] at hl3f; omega)
    simp only [List.append_nil, List.length_nil] at r3
    have hrs : (slice_of pre (q ++ x ++ t) (c ++ post)).remove_suffix t.length =
        slice_of pre (q ++ x) (t ++ (c ++ post)) :=
      remove_suffix_slice_of pre (q ++ x) t (c ++ post) hl3
    have hxt : (x ++ t).length < SIZE_MOD := by
      simp only [List.length_append] at hl3 ⊢; omega
    refine ⟨_, (h3 ws).2, ?_⟩
    unfold cxx11.NameofPretty
    rw [r1]
    simp only
    unfold cxx11.NameofPrettyImpl
    rw [r2]
    simp only
    unfold cxx11.NameofPrettyImpl_
    rw [hrs, r3]
    simp only [Option.map_some']
    cases ws
    · simp only [Bool.false_eq_true, if_false]
      rw [add_suffix_zero_slice_of _ _ _ (by simp only [List.length_append] at hxt; omega)]
    · simp only [if_true]
      rw [add_suffix_slice_of _ _ _ _ hxt]
  · intro q x t c htext hx ht hc
    subst htext
    exact scans_break_shape pre q x t c post hlen hx ht hc

/-- C14, witness: on `"ns::f<T>(1)"` the recursive body with fuel 12 and the
loop return the same slice, the one over `f<T>`. -/
theorem NameofPretty_recursive_eq_loop_witness :
    ∃ r, NameofPretty (slice_of [] "ns::f<T>(1)".toList ['\x00']) true = some r ∧
      cxx11.NameofPretty 12 (slice_of [] "ns::f<T>(1)".toList ['\x00']) true = some r ∧
      r.std_string = some "f<T>".toList := by
  obtain ⟨r, h1, h2⟩ := (NameofPretty_recursive_eq_loop [] "ns::f<T>(1)".toList ['\x00'] true 12
    (by decide) (by decide)).1 (by decide)
  refine ⟨r, h1, h2, ?_⟩
  have h3 : NameofPretty (slice_of [] "ns::f<T>(1)".toList ['\x00']) true =
      some (slice_of "ns::".toList "f<T>".toList ("(1)".toList ++ ['\x00'])) := by decide
  rw [h3] at h1
  rw [← Option.some.inj h1]
  decide

/-- C15: the loop-based `NameofPretty` returns on every text, also the empty
one and one with unbalanced brackets.  With the text as `q ++ x ++ t ++ c`:
the first loop returns `name.remove_suffix(c.length)` with
`c.length ≤ name.size()`; the second loop returns `s = t.length`, at most the
length left, so `name.size() - s` does not wrap; the result is
`name.remove_prefix(q.length).remove_suffix(with_suffix ? 0 : s)` with each
argument at most the length it is taken from; and each loop also returns on
an array that holds nothing but the slice it works on, where a read outside
`0 ≤ i - 1 < name.size()` has no value. -/
theorem NameofPretty_in_bounds (pre text post : List Char) (ws : Bool)
    (hlen : text.length < SIZE_MOD) :
    ∃ q x t c name1, text = q ++ x ++ t ++ c ∧
      name1 = (slice_of pre text post).remove_suffix c.length ∧
      c.length ≤ (slice_of pre text post).size ∧
      NameofPretty_loop1 (slice_of pre text post) (slice_of pre text post).size 0 0 =
        some name1 ∧
      NameofPretty_loop2 name1 name1.size 0 0 = some t.length ∧
      t.length ≤ name1.size ∧
      size_sub name1.size t.length = name1.size - t.length ∧
      q.length ≤ name1.size - t.length ∧
      (if ws then 0 else t.length) ≤ ( cstring.remove_prefix name1 q.length).size ∧
      NameofPretty (slice_of pre text post) ws =
        some ( cstring.remove_suffix ( cstring.remove_prefix name1 q.length)
          (if ws then 0 else t.length)) ∧
      (NameofPretty_loop1 (slice_of [] text []) text.length 0 0).isSome = true ∧
      (NameofPretty_loop2 (slice_of [] (q ++ x ++ t) []) (q ++ x ++ t).length 0 0).isSome =
        true ∧
      (NameofPretty_loop3 (slice_of [] (q ++ x ++ t) []) ws t.length
        ((q ++ x ++ t).length - t.length)).isSome = true := by
  obtain ⟨q, x, t, c, htext, hx, hq, h1, h2, h3⟩ := NameofPretty_stages pre text post hlen
  have hl3 : (q ++ x ++ t).length < SIZE_MOD := by
    rw [htext] at hlen
    simp only [List.length_append] at hlen ⊢; omega
  have hrs : (slice_of pre text post).remove_suffix c.length =
      slice_of pre (q ++ x ++ t) (c ++ post) := by
    rw [htext]
    exact remove_suffix_slice_of pre (q ++ x ++ t) c post (by rw [← htext]; exact hlen)
  have hsz1 : (slice_of pre (q ++ x ++ t) (c ++ post)).size = (q ++ x ++ t).length := rfl
  have hrp : cstring.remove_prefix (slice_of pre (q ++ x ++ t) (c ++ post)) q.length =
      slice_of (pre ++ q) (x ++ t) (c ++ post) := by
    have := remove_prefix_slice_of pre q (x ++ t) (c ++ post)
      (by rw [← List.append_assoc]; exact hl3)
    rw [← List.append_assoc] at this
    exact this
  refine ⟨q, x, t, c, _, htext, rfl, ?_, ?_, ?_, ?_, ?_, ?_, ?_, ?_, ?_, ?_, ?_⟩
  · rw [htext]
    simp only [slice_of, cstring.size, List.length_append]
    omega
  · rw [hrs]; exact h1
  · rw [hrs]; exact h2
  · rw [hrs, hsz1]
    simp only [List.length_append]
    omega
  · rw [hrs, hsz1]
    exact size_sub_of_le (by simp only [List.length_append]; omega) hl3
  · rw [hrs, hsz1]
    simp only [List.length_append]
    omega
  · rw [hrs, hrp]
    simp only [slice_of, cstring.size, List.length_append]
    split_ifs <;> omega
  · rw [hrs, (h3 ws).2, trim_slice_of pre q x t (c ++ post) ws hl3]
  · obtain ⟨m, _, hm⟩ := loop1_total [] text [] hlen text.length 0 0 rfl
    rw [hm]; rfl
  · obtain ⟨s1, _, hs1⟩ := loop2_total [] (q ++ x ++ t) [] (q ++ x ++ t).length 0 0
      (Nat.le_refl _)
    rw [hs1]; rfl
  · have := loop3_result [] q x t [] ws hl3 hx hq
    have e : (q ++ x ++ t).length - t.length = q.length + x.length := by
      simp only [List.length_append]; omega
    rw [e, this]; rfl

/-- C15, witness: the unbalanced text `"a)<(b>"`. -/
theorem NameofPretty_in_bounds_witness :
    ∃ r, NameofPretty (slice_of [] "a)<(b>".toList []) true = some r := by
  obtain ⟨q, x, t, c, name1, _, _, _, _, _, _, _, _, _, h, _⟩ :=
    NameofPretty_in_bounds [] "a)<(b>".toList [] true (by decide)
  exact ⟨_, h⟩

/-- C20: when the first loop of the loop-based `NameofPretty` reaches the start
of the text without its `break`, it leaves `name` as it is (no call suffix is
cut) and the result is the empty slice at the end of the text, for both values
of `with_suffix`; this is the case for the empty text, for a text of
characters that are neither identifier characters nor brackets, and for a text
that is one balanced bracket group. -/
theorem NameofPretty_scan_reaches_start (pre text post : List Char) (ws : Bool)
    (hlen : text.length < SIZE_MOD) :
    (NameofPretty_loop1_breaks (slice_of pre text post) (slice_of pre text post).size 0 =
        false →
      NameofPretty_loop1 (slice_of pre text post) (slice_of pre text post).size 0 0 =
          some (slice_of pre text post) ∧
        NameofPretty (slice_of pre text post) ws = some (slice_of (pre ++ text) [] post) ∧
        (slice_of (pre ++ text) [] post).size = 0 ∧
        (slice_of (pre ++ text) [] post).std_string = some []) ∧
    (text = [] →
      NameofPretty_loop1_breaks (slice_of pre text post) (slice_of pre text post).size 0 =
        false) ∧
    ((∀ ch ∈ text, IsLexeme ch = true ∧ IsBracket ch = false) →
      NameofPretty_loop1_breaks (slice_of pre text post) (slice_of pre text post).size 0 =
        false) ∧
    (isCallSuffix text = true →
      NameofPretty_loop1_breaks (slice_of pre text post) (slice_of pre text post).size 0 =
        false) := by
  have hsz : (slice_of pre text post).size = text.length := rfl
  rw [hsz]
  have hspec := loop1_breaks_spec pre text post hlen text.length 0 0 rfl
  refine ⟨fun hb => ?_, ?_, ?_, ?_⟩
  · have h1 := hspec.1 hb
    have hq : ∀ ch, text.getLast? = some ch → IsLexeme ch = true ∧ ch ≠ '>' ∧ ch ≠ '<' := by
      intro ch hch
      rcases List.eq_nil_or_concat text with h0 | ⟨w, z, hwz⟩
      · subst h0; simp at hch
      · rw [List.concat_eq_append] at hwz
        subst hwz
        rw [List.getLast?_concat] at hch
        have hzc := Option.some.inj hch
        subst hzc
        have hl : (w ++ [z]).length = w.length + 1 := by simp
        have hidx : (slice_of pre (w ++ [z]) post).index w.length = some z :=
          index_at pre post _ w [] z _ rfl rfl
        by_contra hne
        have hstop : IsLexeme z = false ∨ z = '>' ∨ z = '<' := by
          by_cases hlz : IsLexeme z = true
          · simp only [hlz, true_and, not_and_or, not_not] at hne
            exact Or.inr hne
          · exact Or.inl (by simpa using hlz)
        rw [hl, loop1_breaks_stop hidx hstop] at hb
        exact Bool.noConfusion hb
    have h2 : NameofPretty_loop2 (slice_of pre text post) text.length 0 0 = some 0 := by
      rcases List.eq_nil_or_concat text with h0 | ⟨w, z, hwz⟩
      · subst h0; simp [NameofPretty_loop2]
      · rw [List.concat_eq_append] at hwz
        have hz := hq z (by rw [hwz, List.getLast?_concat])
        have hl : text.length = w.length + 1 := by simp [hwz]
        have hidx : (slice_of pre text post).index w.length = some z :=
          index_at pre post _ w [] z _ hwz rfl
        rw [hl, loop2_stop hidx hz.2.1 hz.2.2]
    have h3 := loop3_result pre text [] [] post ws (by simpa using hlen) (by simp)
      (fun ch hch => (hq ch hch).1)
    simp only [List.append_nil, List.length_nil, Nat.add_zero, ite_self, List.nil_append]
      at h3
    refine ⟨h1, ?_, rfl, std_string_slice_of _ _ _⟩
    unfold NameofPretty
    rw [hsz, h1]
    simp only
    rw [hsz, h2]
    simp only
    rw [size_sub_zero hlen]
    exact h3
  · intro h0
    subst h0
    rfl
  · intro hall
    by_contra hb
    obtain ⟨m, z, _, hz, hzz, _⟩ := hspec.2 (by simpa using hb)
    have hmem : z ∈ text := List.getElem?_mem hz
    have := hall z hmem
    rcases hzz with h | h | h
    · rw [this.1] at h; exact Bool.noConfusion h
    · subst h; exact absurd this.2 (by decide)
    · subst h; exact absurd this.2 (by decide)
  · intro hgroup
    by_contra hb
    obtain ⟨m, z, hm, hz, hzz, hr⟩ := hspec.2 (by simpa using hb)
    rw [loop1_group pre text post hlen hgroup] at hr
    have hsize := congrArg cstring.size_ (Option.some.inj hr)
    have hm1 : m + 1 = text.length := by
      simp only [slice_of, List.length_take] at hsize
      omega
    obtain ⟨o, inner, cl, rfl, _, hcl, _⟩ := isCallSuffix_split hgroup
    have hlast : (o :: (inner ++ [cl]))[m]? = some cl := by
      have e : o :: (inner ++ [cl]) = (o :: inner) ++ [cl] := by simp
      have hm2 : m = (o :: inner).length := by
        simp only [List.length_cons, List.length_append, List.length_singleton,
          List.length_nil] at hm1 ⊢
        omega
      rw [e, hm2, List.getElem?_append_right (Nat.le_refl _)]
      simp
    rw [hlast] at hz
    have hzc := Option.some.inj hz
    subst hzc
    have hcl1 := isLexeme_of_isCallClose hcl
    rcases hzz with h | h | h
    · rw [hcl1.1] at h; exact Bool.noConfusion h
    · subst h; rcases hcl with h | h <;> exact absurd h (by decide)
    · subst h; rcases hcl with h | h <;> exact absurd h (by decide)

/-- C20, witness: on `"(x)"` the first loop reaches the start, and the result
is the empty slice. -/
theorem NameofPretty_scan_reaches_start_witness :
    NameofPretty (slice_of [] "(x)".toList ['\x00']) false =
        some (slice_of "(x)".toList [] ['\x00']) ∧
      NameofPretty (slice_of [] "(x)".toList ['\x00']) true =
        some (slice_of "(x)".toList [] ['\x00']) :=
  ⟨((NameofPretty_scan_reaches_start [] "(x)".toList ['\x00'] false (by decide)).1
      (by decide)).2.1,
    ((NameofPretty_scan_reaches_start [] "(x)".toList ['\x00'] true (by decide)).1
      (by decide)).2.1⟩

/-- On slices `a` over a text `u` and `b` over a text `v`, `a.compare(b)`
returns a value `r` that is 0 exactly when the texts are equal, negative
exactly when `u` comes before `v` in the dictionary order (an initial part
before the longer text), positive exactly when `v` comes before `u`; and
`b.compare(a)` returns `-r`.  On the C++14 build `r = 0` exactly when `a == b`
is true; on the pre-C++14 build this holds unless both slices are empty. -/
theorem compare_lexicographic (p1 u r1 p2 v r2 : List Char) :
    ∃ r : Int, (slice_of p1 u r1).compare (slice_of p2 v r2) = some r ∧
      (slice_of p2 v r2).compare (slice_of p1 u r1) = some (-r) ∧
      (r = 0 ↔ u = v) ∧ (r < 0 ↔ u < v) ∧ (0 < r ↔ v < u) ∧
      (r = 0 ↔ cstring.eq true (slice_of p1 u r1) (slice_of p2 v r2) = some true) ∧
      (u ≠ [] ∨ v ≠ [] →
        (r = 0 ↔ cstring.eq false (slice_of p1 u r1) (slice_of p2 v r2) = some true)) := by
  refine ⟨lex_cmp u v, compare_slices p1 u r1 p2 v r2, ?_, lex_cmp_eq_zero u v,
    lex_cmp_neg_iff u v, ?_, ?_, ?_⟩
  · rw [compare_slices p2 v r2 p1 u r1, lex_cmp_swap u v]
  · rw [← lex_cmp_neg_iff v u, lex_cmp_swap u v]
    omega
  · rw [eq_slices true p1 u r1 p2 v r2 (Or.inl rfl), lex_cmp_eq_zero]
    simp
  · intro h
    rw [eq_slices false p1 u r1 p2 v r2 (Or.inr h), lex_cmp_eq_zero]
    simp

/-- An instance: `"ab"` comes before `"abc"`, and the two are not equal. -/
theorem compare_lexicographic_witness :
    (∃ r : Int, (slice_of [] "ab".toList ['\x00']).compare (slice_of [] "abc".toList ['\x00']) =
        some r ∧ r < 0) ∧
      (cstring.eq false (slice_of [] "ab".toList ['\x00']) (slice_of [] "abc".toList ['\x00']) ≠
        some true) := by
  obtain ⟨r, h1, _, h3, h4, _, _, h7⟩ :=
    compare_lexicographic [] "ab".toList ['\x00'] [] "abc".toList ['\x00']
  refine ⟨⟨r, h1, h4.2 (by decide)⟩, ?_⟩
  intro he
  have hr : r = 0 := (h7 (Or.inl (by decide))).2 he
  exact absurd (h3.1 hr) (by decide)

/-- C11, the failing input: on the pre-C++14 build two empty slices whose
storage begins with different characters have `a.compare(b)` and
`b.compare(a)` equal to 0 while `a == b` is false, because the recursive
`StrEquals` compares `lhs[0]` with `rhs[0]` at `size == 0` (the defect of C9
and C17).  On the C++14 build `a == b` is true on the same slices. -/
theorem compare_zero_ne_pre_cxx14 :
    (cstring.ctor { mem := ['x', '\x00'], pos := 0 } 0 0 0).compare
        (cstring.ctor { mem := ['y', '\x00'], pos := 0 } 0 0 0) = some 0 ∧
      (cstring.ctor { mem := ['y', '\x00'], pos := 0 } 0 0 0).compare
        (cstring.ctor { mem := ['x', '\x00'], pos := 0 } 0 0 0) = some 0 ∧
      cstring.eq false (cstring.ctor { mem := ['x', '\x00'], pos := 0 } 0 0 0)
        (cstring.ctor { mem := ['y', '\x00'], pos := 0 } 0 0 0) = some false ∧
      cstring.eq true (cstring.ctor { mem := ['x', '\x00'], pos := 0 } 0 0 0)
        (cstring.ctor { mem := ['y', '\x00'], pos := 0 } 0 0 0) = some true := by
  decide

/-- Converting a slice over a text to an owned string and constructing a
slice over that string yields a slice of the same length that compares equal
to the first under `operator==`, in either order: on the C++14 build always,
on the pre-C++14 build when the slice is not empty. -/
theorem std_string_round_trip (pre text post : List Char) (hlen : text.length < SIZE_MOD) :
    ∃ str, (slice_of pre text post).std_string = some str ∧
      (cstring.of_std_string str).size = (slice_of pre text post).size ∧
      cstring.eq true (cstring.of_std_string str) (slice_of pre text post) = some true ∧
      cstring.eq true (slice_of pre text post) (cstring.of_std_string str) = some true ∧
      (text ≠ [] →
        cstring.eq false (cstring.of_std_string str) (slice_of pre text post) = some true ∧
        cstring.eq false (slice_of pre text post) (cstring.of_std_string str) = some true) := by
  have hof : cstring.of_std_string text = slice_of [] text ['\x00'] := by
    unfold cstring.of_std_string
    rw [ctor_zero_zero hlen]
    simp [slice_of]
  refine ⟨text, std_string_slice_of _ _ _, ?_, ?_, ?_, fun h => ⟨?_, ?_⟩⟩
  · rw [hof]; rfl
  · rw [hof, eq_slices true _ _ _ _ _ _ (Or.inl rfl)]; simp
  · rw [hof, eq_slices true _ _ _ _ _ _ (Or.inl rfl)]; simp
  · rw [hof, eq_slices false _ _ _ _ _ _ (Or.inr (Or.inl h))]; simp
  · rw [hof, eq_slices false _ _ _ _ _ _ (Or.inr (Or.inl h))]; simp

/-- An instance: the slice `"bar"` inside `"ns::Foo::bar(1, 2)"`. -/
theorem std_string_round_trip_witness :
    ∃ str, (slice_of "ns::Foo::".toList "bar".toList "(1, 2)".toList).std_string = some str ∧
      str = "bar".toList ∧
      cstring.eq true (cstring.of_std_string str)
        (slice_of "ns::Foo::".toList "bar".toList "(1, 2)".toList) = some true := by
  obtain ⟨str, h1, _, h3, _⟩ :=
    std_string_round_trip "ns::Foo::".toList "bar".toList "(1, 2)".toList (by decide)
  refine ⟨str, h1, ?_, h3⟩
  rw [std_string_slice_of] at h1
  exact (Option.some.inj h1).symm

/-- C12, the failing input: on the pre-C++14 build the empty slice at the
start of `"x"` becomes the owned string `""`, and the slice over that string
has the same length 0 but compares unequal to it in either order: the
recursive `StrEquals` compares the terminating null of the owned string with
`'x'` at `size == 0` (the defect of C9 and C17).  The same happens with the
empty slice that the recursive `NameofPretty` returns on `"a < b > (c)"`,
which points at `'<'`.  On the C++14 build the slices compare equal. -/
theorem std_string_round_trip_empty_pre_cxx14 :
    (cstring.ctor { mem := ['x', '\x00'], pos := 0 } 0 0 0).std_string = some [] ∧
      (cstring.of_std_string []).size =
        (cstring.ctor { mem := ['x', '\x00'], pos := 0 } 0 0 0).size ∧
      cstring.eq false (cstring.of_std_string [])
        (cstring.ctor { mem := ['x', '\x00'], pos := 0 } 0 0 0) = some false ∧
      cstring.eq false (cstring.ctor { mem := ['x', '\x00'], pos := 0 } 0 0 0)
        (cstring.of_std_string []) = some false ∧
      cstring.eq true (cstring.of_std_string [])
        (cstring.ctor { mem := ['x', '\x00'], pos := 0 } 0 0 0) = some true ∧
      cxx11.NameofPretty 12 (slice_of [] "a < b > (c)".toList ['\x00']) false =
        some (slice_of "a ".toList [] ("< b > (c)".toList ++ ['\x00'])) ∧
      (slice_of "a ".toList [] ("< b > (c)".toList ++ ['\x00'])).std_string = some [] ∧
      cstring.eq false (cstring.of_std_string [])
        (slice_of "a ".toList [] ("< b > (c)".toList ++ ['\x00'])) = some false := by
  decide

/-! ## Texts without brackets in the recursive body -/

/-- At nesting 0 `RemoveSuffix` drops a last character that is neither an
identifier character nor a bracket. -/
theorem RemoveSuffix_skip {name : cstring} {c : Char} (fuel : Nat) (hb : name.back = some c)
    (h1 : IsLexeme c = true) (h2 : IsBracket c = false) :
    cxx11.RemoveSuffix (fuel + 1) name 0 = cxx11.RemoveSuffix fuel (name.remove_suffix 1) 0 := by
  rw [cxx11.RemoveSuffix]
  simp [hb, h1, h2]

/-- At nesting 0 `RemoveSuffix` returns a slice that ends in an identifier
character as it is. -/
theorem RemoveSuffix_stop {name : cstring} {c : Char} (fuel : Nat) (hb : name.back = some c)
    (hc : IsLexeme c = false) :
    cxx11.RemoveSuffix (fuel + 1) name 0 = some name := by
  have hzb := ident_not_bracket hc
  rw [cxx11.RemoveSuffix]
  simp [hb, hc, hzb.1, hzb.2.1]

/-- When `name.back()` is outside the array, `RemoveSuffix` has no result. -/
theorem RemoveSuffix_back_none {name : cstring} (hb : name.back = none) (fuel h : Nat) :
    cxx11.RemoveSuffix fuel name h = none := by
  cases fuel with
  | zero => rw [cxx11.RemoveSuffix]
  | succ f =>
    rw [cxx11.RemoveSuffix]
    simp [hb]

/-- On the empty slice `back()` reads index `size_t(0 - 1)`, outside the array. -/
theorem back_empty_slice (pre post : List Char) (hmem : (pre ++ post).length < SIZE_MOD) :
    (slice_of pre [] post).back = none := by
  have h1 : size_sub 0 1 = SIZE_MOD - 1 := by decide
  unfold cstring.back CharPtr.read
  simp only [slice_of, List.length_nil, List.append_nil, h1]
  exact List.getElem?_eq_none (by omega)

/-- The recursive `RemoveSuffix` drops the final run of characters that are
neither identifier characters nor brackets, one call for each. -/
theorem RemoveSuffix_skip_run (pre a : List Char) : ∀ (r post : List Char) (fuel : Nat),
    (a ++ r).length < SIZE_MOD →
    (∀ ch ∈ r, IsLexeme ch = true ∧ IsBracket ch = false) →
    cxx11.RemoveSuffix (fuel + r.length) (slice_of pre (a ++ r) post) 0 =
      cxx11.RemoveSuffix fuel (slice_of pre a (r ++ post)) 0 := by
  intro r
  induction r using List.reverseRecOn with
  | nil => intro post fuel _ _; simp
  | append_singleton r c ih =>
    intro post fuel hlen hr
    have hc := hr c (by simp)
    have hlen1 : (a ++ r ++ [c]).length < SIZE_MOD := by
      simpa [List.append_assoc] using hlen
    have hlen2 : (a ++ r).length < SIZE_MOD := by
      simp only [List.length_append, List.length_singleton] at hlen1 ⊢; omega
    have hback : (slice_of pre (a ++ r ++ [c]) post).back = some c :=
      back_slice_of pre (a ++ r) post c hlen1
    have hrs : (slice_of pre (a ++ r ++ [c]) post).remove_suffix 1 =
        slice_of pre (a ++ r) ([c] ++ post) :=
      remove_suffix_slice_of pre (a ++ r) [c] post hlen1
    have hl : fuel + (r ++ [c]).length = fuel + r.length + 1 := by simp; omega
    rw [hl, ← List.append_assoc, RemoveSuffix_skip _ hback hc.1 hc.2, hrs,
      ih ([c] ++ post) fuel hlen2 (fun d hd => hr d (by simp [hd]))]
    simp

/-- On a text without identifier characters and without brackets the recursive
`RemoveSuffix` has no result, whatever the fuel: it drops every character and
then reads `back()` of the empty slice. -/
theorem RemoveSuffix_no_ident (pre : List Char) : ∀ (r post : List Char) (fuel : Nat),
    (pre ++ r ++ post).length < SIZE_MOD →
    (∀ ch ∈ r, IsLexeme ch = true ∧ IsBracket ch = false) →
    cxx11.RemoveSuffix fuel (slice_of pre r post) 0 = none := by
  intro r
  induction r using List.reverseRecOn with
  | nil =>
    intro post fuel hmem _
    exact RemoveSuffix_back_none (back_empty_slice pre post (by simpa using hmem)) fuel 0
  | append_singleton r c ih =>
    intro post fuel hmem hr
    have hc := hr c (by simp)
    have hlen1 : (r ++ [c]).length < SIZE_MOD := by
      simp only [List.length_append, List.length_singleton] at hmem ⊢; omega
    have hrs : (slice_of pre (r ++ [c]) post).remove_suffix 1 = slice_of pre r ([c] ++ post) :=
      remove_suffix_slice_of pre r [c] post hlen1
    cases fuel with
    | zero => rw [cxx11.RemoveSuffix]
    | succ f =>
      rw [RemoveSuffix_skip f (back_slice_of pre r post c hlen1) hc.1 hc.2, hrs]
      exact ih ([c] ++ post) f (by simpa [List.append_assoc] using hmem)
        (fun d hd => hr d (by simp [hd]))

/-- C16, counterexample: the text `"x++"` has none of the six brackets, and the
first loop cuts its last two characters: the suffix length of the call-suffix
stage is 2, not 0. -/
theorem NameofPretty_loop1_cuts_operator :
    (∀ ch ∈ "x++".toList, IsBracket ch = false) ∧
      NameofPretty_loop1 (slice_of [] "x++".toList ['\x00']) 3 0 0 =
        some (slice_of [] "x".toList ("++".toList ++ ['\x00'])) ∧
      NameofPretty_loop1 (slice_of [] "x++".toList ['\x00']) 3 0 0 ≠
        some (slice_of [] "x++".toList ['\x00']) ∧
      cxx11.RemoveSuffix 4 (slice_of [] "x++".toList ['\x00']) 0 =
        some (slice_of [] "x".toList ("++".toList ++ ['\x00'])) := by
  decide

/-- On a text `a ++ r` without brackets, where `r` is the final run of
characters that are not identifier characters and `a` is empty or ends in an
identifier character: when `a` is not empty, the first loop and `RemoveSuffix`
remove exactly `r`, and the second loop and `FindSuffix` find 0; when `a` is
empty, the loops remove nothing and find 0, and `RemoveSuffix` has no result
for any fuel. -/
theorem no_bracket_stages (pre a r post : List Char) (fuel : Nat)
    (hlen : (a ++ r).length < SIZE_MOD)
    (hnb : ∀ ch ∈ a ++ r, IsBracket ch = false)
    (ha : ∀ ch, a.getLast? = some ch → IsLexeme ch = false)
    (hr : ∀ ch ∈ r, IsLexeme ch = true) :
    (a ≠ [] →
      NameofPretty_loop1 (slice_of pre (a ++ r) post) (a ++ r).length 0 0 =
          some (slice_of pre a (r ++ post)) ∧
        NameofPretty_loop2 (slice_of pre a (r ++ post)) a.length 0 0 = some 0 ∧
        cxx11.RemoveSuffix (fuel + 1 + r.length) (slice_of pre (a ++ r) post) 0 =
          some (slice_of pre a (r ++ post)) ∧
        cxx11.FindSuffix (fuel + 1) (slice_of pre a (r ++ post)) 0 0 = some 0) ∧
    (a = [] →
      NameofPretty_loop1 (slice_of pre (a ++ r) post) (a ++ r).length 0 0 =
          some (slice_of pre (a ++ r) post) ∧
        NameofPretty_loop2 (slice_of pre (a ++ r) post) (a ++ r).length 0 0 = some 0 ∧
        ((pre ++ (a ++ r) ++ post).length < SIZE_MOD →
          ∀ n, cxx11.RemoveSuffix n (slice_of pre (a ++ r) post) 0 = none)) := by
  have hrun : ∀ ch ∈ r, IsLexeme ch = true ∧ IsBracket ch = false :=
    fun ch hch => ⟨hr ch hch, hnb ch (List.mem_append_right a hch)⟩
  have hskip := loop1_skip_run pre post r a [] 0 hrun
  simp only [List.append_nil, Nat.zero_add] at hskip
  have hl : (a ++ r).length = a.length + r.length := List.length_append a r
  -- the second loop stops at once on a last character that is no angle bracket
  have hloop2 : ∀ (p w q : List Char), (∀ ch, w.getLast? = some ch → ch ≠ '>' ∧ ch ≠ '<') →
      NameofPretty_loop2 (slice_of p w q) w.length 0 0 = some 0 := by
    intro p w q hw
    rcases List.eq_nil_or_concat w with h0 | ⟨w1, z, hwz⟩
    · subst h0; simp [NameofPretty_loop2]
    · rw [List.concat_eq_append] at hwz
      subst hwz
      have hz := hw z (List.getLast?_concat w1)
      have hl1 : (w1 ++ [z]).length = w1.length + 1 := by simp
      rw [hl1, loop2_stop (index_at p q _ w1 [] z _ rfl rfl) hz.1 hz.2]
  have hnotangle : ∀ ch, IsBracket ch = false → ch ≠ '>' ∧ ch ≠ '<' := by
    intro ch hch
    constructor <;> (rintro rfl; revert hch; decide)
  refine ⟨fun hane => ?_, fun ha0 => ?_⟩
  · obtain ⟨a1, z, haz⟩ : ∃ a1 z, a = a1 ++ [z] := by
      rcases List.eq_nil_or_concat a with h0 | ⟨a1, z, h⟩
      · exact absurd h0 hane
      · exact ⟨a1, z, by rw [h, List.concat_eq_append]⟩
    have hz : IsLexeme z = false := ha z (by rw [haz, List.getLast?_concat])
    have hzb := ident_not_bracket hz
    have hla : a.length = a1.length + 1 := by simp [haz]
    have hlena : a.length < SIZE_MOD := by omega
    have hidx : (slice_of pre (a ++ r) post).index a1.length = some z :=
      index_at pre post _ a1 r z _ (by simp [haz]) rfl
    have hidxa : (slice_of pre a (r ++ post)).index a1.length = some z :=
      index_at pre (r ++ post) _ a1 [] z _ (by simp [haz]) rfl
    have hbacka : (slice_of pre a (r ++ post)).back = some z := by
      rw [haz]
      exact back_slice_of pre a1 (r ++ post) z (by rw [← haz]; exact hlena)
    have hsz : (slice_of pre a (r ++ post)).size = a1.length + 1 := hla
    have hi : size_sub (size_sub (a1.length + 1) 1) 0 = a1.length := by
      rw [size_sub_sub (by omega) (by omega)]
      omega
    refine ⟨?_, ?_, ?_, ?_⟩
    · rw [hl, hskip, hla, loop1_stop hidx (Or.inl hz)]
      exact congrArg some (remove_suffix_slice_of pre a r post hlen)
    · exact hloop2 _ _ _ fun ch hch => by
        rw [haz, List.getLast?_concat] at hch
        rw [← Option.some.inj hch]
        exact ⟨hzb.2.2.1, hzb.2.2.2.1⟩
    · rw [RemoveSuffix_skip_run pre a r post (fuel + 1) hlen hrun]
      exact RemoveSuffix_stop fuel hbacka hz
    · unfold cxx11.FindSuffix
      rw [hsz, hi, hidxa]
      simp [hzb.2.2.1, hzb.2.2.2.1]
  · subst ha0
    simp only [List.nil_append, List.length_nil, Nat.zero_add] at hskip hl ⊢
    refine ⟨?_, hloop2 _ _ _ fun ch hch => hnotangle ch
      (hnb ch (by simpa using List.mem_of_getLast?_eq_some hch)), fun hmem n => ?_⟩
    · rw [hskip]
      simp [NameofPretty_loop1]
    · exact RemoveSuffix_no_ident pre r post n hmem hrun

/-- Every text splits into a part that is empty or ends in an identifier
character and a final run of characters that are not identifier characters. -/
theorem lexeme_run_split (text : List Char) :
    ∃ a r, text = a ++ r ∧ (∀ ch, a.getLast? = some ch → IsLexeme ch = false) ∧
      (∀ ch ∈ r, IsLexeme ch = true) := by
  induction text using List.reverseRecOn with
  | nil => exact ⟨[], [], rfl, by simp, by simp⟩
  | append_singleton t c ih =>
    by_cases hc : IsLexeme c = true
    · obtain ⟨a, r, ht, ha, hr⟩ := ih
      refine ⟨a, r ++ [c], by simp [ht], ha, ?_⟩
      intro d hd
      rcases List.mem_append.1 hd with hd | hd
      · exact hr d hd
      · simp at hd; subst hd; exact hc
    · exact ⟨t ++ [c], [], by simp, by simpa using hc, by simp⟩

/-- C16, amended: every text without brackets is `a ++ r`, where `r` holds the
characters after the last identifier character and `a` is empty exactly when
the text has no identifier character.  When the text has an identifier
character, the call-suffix stage removes exactly `r` (nothing when the text
ends in an identifier character) and the template-suffix stage finds `s = 0`,
in the loop body and, with fuel above the length of `r`, in the recursive
body.  When it has none (the empty text included), the loops remove nothing
and find `s = 0`, and the recursive `RemoveSuffix` has no result for any fuel:
it reads `back()` of the empty slice. -/
theorem NameofPretty_no_bracket (pre text post : List Char) (fuel : Nat)
    (hlen : text.length < SIZE_MOD)
    (hnb : ∀ ch ∈ text, IsBracket ch = false) :
    ∃ a r, text = a ++ r ∧
      (∀ ch, a.getLast? = some ch → IsLexeme ch = false) ∧
      (∀ ch ∈ r, IsLexeme ch = true) ∧
      (a = [] ↔ ∀ ch ∈ text, IsLexeme ch = true) ∧
      (a ≠ [] →
        NameofPretty_loop1 (slice_of pre text post) text.length 0 0 =
            some (slice_of pre a (r ++ post)) ∧
          NameofPretty_loop2 (slice_of pre a (r ++ post)) a.length 0 0 = some 0 ∧
          cxx11.RemoveSuffix (fuel + 1 + r.length) (slice_of pre text post) 0 =
            some (slice_of pre a (r ++ post)) ∧
          cxx11.FindSuffix (fuel + 1) (slice_of pre a (r ++ post)) 0 0 = some 0) ∧
      (a = [] →
        NameofPretty_loop1 (slice_of pre text post) text.length 0 0 =
            some (slice_of pre text post) ∧
          NameofPretty_loop2 (slice_of pre text post) text.length 0 0 = some 0 ∧
          ((pre ++ text ++ post).length < SIZE_MOD →
            ∀ n, cxx11.RemoveSuffix n (slice_of pre text post) 0 = none)) := by
  obtain ⟨a, r, ht, ha, hr⟩ := lexeme_run_split text
  subst ht
  have h := no_bracket_stages pre a r post fuel hlen hnb ha hr
  refine ⟨a, r, rfl, ha, hr, ⟨fun h0 ch hch => ?_, fun hall => ?_⟩, h.1, h.2⟩
  · subst h0
    exact hr ch (by simpa using hch)
  · by_contra hne
    obtain ⟨a1, z, haz⟩ : ∃ a1 z, a = a1 ++ [z] := by
      rcases List.eq_nil_or_concat a with h0 | ⟨a1, z, h⟩
      · exact absurd h0 hne
      · exact ⟨a1, z, by rw [h, List.concat_eq_append]⟩
    have hz : IsLexeme z = false := ha z (by rw [haz, List.getLast?_concat])
    have hz1 : IsLexeme z = true := hall z (by simp [haz])
    rw [hz] at hz1
    exact absurd hz1 (by decide)

/-- C16, witness: `"x++"` has an identifier character; both bodies cut the
characters after it and find no template suffix. -/
theorem NameofPretty_no_bracket_witness :
    (∀ ch ∈ "x++".toList, IsBracket ch = false) ∧
      ∃ a r, "x++".toList = a ++ r ∧ a ≠ [] ∧
        NameofPretty_loop1 (slice_of [] "x++".toList ['\x00']) 3 0 0 =
          some (slice_of [] a (r ++ ['\x00'])) ∧
        NameofPretty_loop2 (slice_of [] a (r ++ ['\x00'])) a.length 0 0 = some 0 ∧
        cxx11.RemoveSuffix (1 + r.length) (slice_of [] "x++".toList ['\x00']) 0 =
          some (slice_of [] a (r ++ ['\x00'])) ∧
        cxx11.FindSuffix 1 (slice_of [] a (r ++ ['\x00'])) 0 0 = some 0 := by
  refine ⟨by decide, ?_⟩
  obtain ⟨a, r, h1, _, _, h4, h5, _⟩ :=
    NameofPretty_no_bracket [] "x++".toList ['\x00'] 0 (by decide) (by decide)
  have hne : a ≠ [] := fun h0 => absurd (h4.1 h0 'x' (by decide)) (by decide)
  exact ⟨a, r, h1, hne, h5 hne⟩

/-- C17, the failing input: at `size = 0` the recursive (pre-C++14) `StrEquals`
compares `lhs[0]` with `rhs[0]`, so on buffers that begin with different
characters it returns false where the loop returns true, and on empty buffers
it reads outside them.  The same base case makes `==` wrong on two empty
slices (C9). -/
theorem StrEquals_size_zero :
    StrEquals false { mem := ['x', '\x00'], pos := 0 } { mem := ['y', '\x00'], pos := 0 } 0 =
        some false ∧
      StrEquals true { mem := ['x', '\x00'], pos := 0 } { mem := ['y', '\x00'], pos := 0 } 0 =
        some true ∧
      StrEquals false { mem := [], pos := 0 } { mem := [], pos := 0 } 0 = none ∧
      StrEquals true { mem := [], pos := 0 } { mem := [], pos := 0 } 0 = some true := by
  decide

end nameof
